import Mathlib

/-!
Verification of the firecrawl CLI wrapper (firecrawl_cli.py / firecrawl_client.py).

The Python sources are shallowly embedded below: pure string/list helpers become
Lean functions on `String` / `List Char`, the stateful batch-extraction loop of
`search_web` becomes explicit state passing over a `BatchState`, and the
network-facing pieces (HTTP GET, the hosted API, the search engine) are
parameters ("oracles") to the embedded control flow, so that every claim about
the repository's own logic can be settled against the code as written.
-/

namespace Firecrawl

/-! ## Generic character/list helpers -/

/-- Boolean prefix test on character lists (used to model Python's substring
containment `needle in hay`). -/
def isPrefixChars : List Char → List Char → Bool
  | [], _ => true
  | _ :: _, [] => false
  | a :: as, b :: bs => a == b && isPrefixChars as bs

/-- Boolean substring containment on character lists: `containsSub needle hay`
is `true` iff `needle` occurs contiguously in `hay`.  Models Python's
`needle in hay` for strings (the empty needle always occurs). -/
def containsSub : List Char → List Char → Bool
  | needle, [] => isPrefixChars needle []
  | needle, b :: bs => isPrefixChars needle (b :: bs) || containsSub needle bs

/-- Substring containment lifted to `String` (Python `needle in hay`). -/
def strHasSub (hay needle : String) : Bool :=
  containsSub needle.toList hay.toList

/-- Python `str.lower()`, character by character (ASCII case folding). -/
def lowerChars (s : String) : String :=
  String.mk (s.toList.map Char.toLower)

/-- Python `s.startswith(pre)`. -/
def strStartsWith (s pre : String) : Bool :=
  isPrefixChars pre.toList s.toList

/-- Models `[token for token in re.split(r'\s+', q) if token.strip()]`: the
maximal whitespace-free runs of the input, in order (`acc` holds the reversed
run currently being read). -/
def splitTokens : List Char → List Char → List String
  | [], acc => if acc = [] then [] else [String.mk acc.reverse]
  | c :: rest, acc =>
    if c.isWhitespace then
      (if acc = [] then [] else [String.mk acc.reverse]) ++ splitTokens rest []
    else splitTokens rest (c :: acc)

/-! ## Search provider: CJK detection, locale, relevance filter
    (firecrawl_client.py, `_包含中文` lines 363-366, `_结果相关` lines 368-392,
    `_过滤搜索结果` lines 394-417, `_免费搜索` lines 428-556). -/

/-- Embeds `_包含中文`: true iff some character lies in the CJK Unified
Ideographs range U+4E00 .. U+9FFF (Python: `'一' <= ch <= '鿿'`). -/
def containsChinese (text : String) : Bool :=
  text.toList.any (fun ch => decide (0x4e00 ≤ ch.toNat) && decide (ch.toNat ≤ 0x9fff))

/-- The locale hint computed by `_免费搜索` (line 467):
`region = 'cn-zh' if has_chinese else 'wt-wt'`. -/
def searchRegion (query : String) : String :=
  if containsChinese query then "cn-zh" else "wt-wt"

/-- The candidate count requested from the engine by `_免费搜索` (line 468):
`fetch_limit = max(结果数量 * 3, 15)`. -/
def searchFetchLimit (count : Nat) : Nat :=
  max (count * 3) 15

/-- A search hit as handled by the filter: the dictionary keys `url`, `title`,
`description` (a missing/None field is modelled as the empty string, which is
exactly what the code's `.get(...) or ''` defaulting produces). -/
structure SearchHit where
  url : String
  title : String
  description : String
deriving DecidableEq, Repr

/-- Embeds `_结果相关(查询, result)` (firecrawl_client.py lines 368-392):
a candidate is relevant iff some lowercased whitespace token of the query
occurs in `(title + " " + description).lower()` or in `url.lower()`, or — for
a query containing CJK — the query with ASCII spaces removed occurs verbatim
in `title + description`. -/
def resultRelevant (query : String) (r : SearchHit) : Bool :=
  if query = "" then true
  else
    let combined := lowerChars (r.title ++ " " ++ r.description)
    let url := lowerChars r.url
    let tokens1 := (splitTokens query.toList []).map lowerChars
    let tokens := if tokens1 = [] then [lowerChars query] else tokens1
    let hasChinese := containsChinese query
    (tokens.any (fun t => t ≠ "" && (strHasSub combined t || strHasSub url t)))
      ||
    (hasChinese &&
      (let joined := String.mk (query.toList.filter (fun c => c ≠ ' '))
       joined ≠ "" && strHasSub (r.title ++ r.description) joined))

/-- The single pass of `_过滤搜索结果` (lines 402-411): walk the raw list, skip
items with a falsy url or an already-seen url, sort the rest into the relevant
(`filtered`) and irrelevant (`fallback`) accumulators. -/
def filterPass (query : String) : List SearchHit → List SearchHit → List SearchHit →
    List String → (List SearchHit × List SearchHit)
  | [], f, fb, _ => (f, fb)
  | item :: rest, f, fb, seen =>
    if item.url = "" || seen.contains item.url then
      filterPass query rest f fb seen
    else if resultRelevant query item then
      filterPass query rest (f ++ [item]) fb (seen ++ [item.url])
    else
      filterPass query rest f (fb ++ [item]) (seen ++ [item.url])

/-- Embeds `_过滤搜索结果(查询, 原始结果, 目标数量)` (lines 394-417): partition
the de-duplicated candidates into relevant/irrelevant, top the relevant ones
up from the irrelevant ones if needed, and cap at the requested count. -/
def filterSearchResults (query : String) (raw : List SearchHit) (target : Nat) :
    List SearchHit :=
  if raw = [] then []
  else
    let p := filterPass query raw [] [] []
    let filtered := p.1
    let fallback := p.2
    let filtered :=
      if filtered.length < target then filtered ++ fallback.take (target - filtered.length)
      else filtered
    filtered.take target

/-- Reference form of the deduplication performed inside `_过滤搜索结果`: keep
the first occurrence of each url, dropping items whose url is falsy or was
seen before (`seen` is the set of urls already taken). -/
def dedupByUrlAux : List SearchHit → List String → List SearchHit
  | [], _ => []
  | item :: rest, seen =>
    if item.url = "" || seen.contains item.url then dedupByUrlAux rest seen
    else item :: dedupByUrlAux rest (seen ++ [item.url])

/-- Deduplicate a candidate list by url, keeping first occurrences. -/
def dedupByUrl (raw : List SearchHit) : List SearchHit :=
  dedupByUrlAux raw []

/-! ## Filename sanitization
    (firecrawl_cli.py lines 172-174, 435-437: the `safe_title` computation). -/

/-- Python `c.isalnum()`, modelled for the character classes that actually
occur in this code base: ASCII letters and digits plus the CJK Unified
Ideographs block. -/
def pyIsAlnum (c : Char) : Bool :=
  c.isAlphanum || (decide (0x4e00 ≤ c.toNat) && decide (c.toNat ≤ 0x9fff))

/-- A sanitized character is kept by the `"".join(c for c in title if
c.isalnum() or c in (' ', '-', '_'))` comprehension. -/
def keepChar (c : Char) : Bool :=
  pyIsAlnum c || c = ' ' || c = '-' || c = '_'

/-- Python `str.strip()` on a character list: drop whitespace from both ends. -/
def pyStrip (cs : List Char) : List Char :=
  ((cs.dropWhile Char.isWhitespace).reverse.dropWhile Char.isWhitespace).reverse

/-- Embeds the filename fragment sanitizer used by `extract_article` (lines
172-174) and `save_article` (lines 435-437):
`"".join(c for c in t if c.isalnum() or c in (' ','-','_')).strip()[:50]
.replace(' ', '_')`. -/
def safeTitle (t : String) : String :=
  String.mk ((((t.toList.filter keepChar) |> pyStrip).take 50).map
    (fun c => if c = ' ' then '_' else c))

/-! ## Free-search raw candidate normalization
    (firecrawl_client.py `_免费搜索` lines 481-497). -/

/-- A raw result dictionary yielded by the search engine; every key may be
absent (`none`). -/
structure RawResult where
  href : Option String
  url : Option String
  title : Option String
  text : Option String
  body : Option String
  description : Option String
  snippet : Option String
deriving DecidableEq, Repr

/-- Python truthiness chain `a or b or ... or ''` over optional strings:
the first present, non-empty string, else `""`. -/
def firstTruthy : List (Option String) → String
  | [] => ""
  | some s :: rest => if s = "" then firstTruthy rest else s
  | none :: rest => firstTruthy rest

/-- Embeds the per-candidate normalization of `_免费搜索` (lines 481-497):
skip `None` entries, read `href`/`url`, `title`/`text`,
`body`/`description`/`snippet` with truthy defaulting, keep the candidate only
when the url is non-empty and starts with `http://` or `https://`, and
substitute the `无标题` placeholder for an empty title. -/
def buildRawHit (r : Option RawResult) : Option SearchHit :=
  match r with
  | none => none
  | some r =>
    let url := firstTruthy [r.href, r.url]
    let title := firstTruthy [r.title, r.text]
    let description := firstTruthy [r.body, r.description, r.snippet]
    if url ≠ "" && (strStartsWith url "http://" || strStartsWith url "https://") then
      some ⟨url, if title = "" then "无标题" else title, description⟩
    else none

/-- The hits produced by the free-search path for a given engine result
stream: normalize the raw candidates, then apply the relevance filter. -/
def freeSearchHits (query : String) (engineResults : List (Option RawResult))
    (count : Nat) : List SearchHit :=
  filterSearchResults query (engineResults.filterMap buildRawHit) count

/-! ## Publish-time extraction from the parsed page
    (firecrawl_client.py `_本地提取文章信息` lines 979-1008, 1025). -/

/-- A parsed HTML tag: element name plus attribute list (first binding of a
key wins, as in a parsed attribute dictionary). -/
structure HtmlTag where
  name : String
  attrs : List (String × String)
deriving DecidableEq, Repr

/-- A BeautifulSoup attribute constraint: either `{'key': 'value'}` (exact
value) or `{'key': True}` (attribute present). -/
inductive AttrReq
  | eqAttr (key value : String)
  | hasAttr (key : String)
deriving DecidableEq, Repr

/-- Attribute lookup on a tag (`tag.get(key)`). -/
def getAttr (t : HtmlTag) (key : String) : Option String :=
  (t.attrs.find? (fun p => p.1 == key)).map Prod.snd

/-- Whether a tag satisfies one attribute constraint. -/
def attrMatches (t : HtmlTag) : AttrReq → Bool
  | .eqAttr k v =>
    match getAttr t k with
    | some s => s == v
    | none => false
  | .hasAttr k => (getAttr t k).isSome

/-- `soup.find_all(tag_name, attrs)`: all tags with the given name whose
attributes satisfy every constraint. -/
def findAll (page : List HtmlTag) (name : String) (reqs : List AttrReq) :
    List HtmlTag :=
  page.filter (fun t => t.name == name && reqs.all (attrMatches t))

/-- The attribute read for a matching tag (lines 993-997): `content` for a
`meta` tag, `datetime` otherwise, defaulting to the empty string. -/
def tagTimeValue (selName : String) (t : HtmlTag) : String :=
  if selName = "meta" then (getAttr t "content").getD ""
  else (getAttr t "datetime").getD ""

/-- The fixed priority list `time_selectors` (lines 981-988). -/
def timeSelectors : List (String × List AttrReq) :=
  [("meta", [.eqAttr "property" "article:published_time"]),
   ("meta", [.eqAttr "property" "article:modified_time"]),
   ("meta", [.eqAttr "name" "publishdate"]),
   ("meta", [.eqAttr "name" "pubdate"]),
   ("time", [.hasAttr "datetime"]),
   ("time", [.hasAttr "pubdate"])]

/-- First non-empty string of a list, if any. -/
def firstNonEmptyStr : List String → Option String
  | [] => none
  | s :: rest => if s = "" then firstNonEmptyStr rest else some s

/-- Normalization applied to a found timestamp string (lines 1000-1005):
`date_parser.parse` + `strftime('%Y-%m-%d %H:%M:%S')` when parseable, the raw
string otherwise.  The parser is an oracle parameter (`dateutil` is an
external library). -/
def normalizeTime (parseDate : String → Option String) (s : String) : String :=
  match parseDate s with
  | some norm => norm
  | none => s

/-- The selector scan of lines 990-1008: for each selector in priority order,
take the first matching tag with a non-empty value, normalize it and stop;
otherwise move to the next selector. -/
def scanTimeSelectors (parseDate : String → Option String) (page : List HtmlTag) :
    List (String × List AttrReq) → String
  | [] => ""
  | sel :: rest =>
    match firstNonEmptyStr ((findAll page sel.1 sel.2).map (tagTimeValue sel.1)) with
    | some v => normalizeTime parseDate v
    | none => scanTimeSelectors parseDate page rest

/-- The `publish_time` value computed by the scan of lines 979-1008. -/
def extractPublishTime (parseDate : String → Option String)
    (page : List HtmlTag) : String :=
  scanTimeSelectors parseDate page timeSelectors

/-- The `publish_time` field of the result dict (line 1025):
`publish_time.strip() if publish_time else ""`. -/
def publishTimeField (parseDate : String → Option String)
    (page : List HtmlTag) : String :=
  String.mk (pyStrip (extractPublishTime parseDate page).toList)

/-- Shape check for an ISO date `YYYY-MM-DD`. -/
def isoDateShape : List Char → Bool
  | [y1, y2, y3, y4, '-', mo1, mo2, '-', d1, d2] =>
    [y1, y2, y3, y4, mo1, mo2, d1, d2].all Char.isDigit
  | _ => false

/-- Shape check for a clock time `HH:MM:SS`. -/
def isoTimeShape : List Char → Bool
  | [h1, h2, ':', mi1, mi2, ':', s1, s2] =>
    [h1, h2, mi1, mi2, s1, s2].all Char.isDigit
  | _ => false

/-- Model of `dateutil.parser.parse` followed by
`strftime('%Y-%m-%d %H:%M:%S')`, for plain ISO-8601 inputs
`YYYY-MM-DDTHH:MM:SS` with an optional `Z` suffix (the scan itself is
parameterized over the parser; this concrete model instantiates it for the
claim's test page, where dateutil's behaviour is unambiguous). -/
def isoNormalize (s : String) : Option String :=
  let cs := s.toList
  let date := cs.take 10
  let sep := (cs.drop 10).take 1
  let tpart := (cs.drop 11).take 8
  let rest := cs.drop 19
  if isoDateShape date && (sep = ['T'] || sep = [' ']) && isoTimeShape tpart
      && (rest = [] || rest = ['Z']) then
    some (String.mk (date ++ ' ' :: tpart))
  else none

/-! ## Local download loop with retries
    (firecrawl_client.py `_本地提取文章信息` lines 848-904). -/

/-- Outcome of one `requests.get` attempt, as distinguished by the handlers of
lines 868-901. -/
inductive HttpOutcome
  | ok (html : String)
  | httpErr (status : Nat)
  | connErr (msg : String)
  | timedOut
deriving DecidableEq, Repr

/-- Result of the download loop: the page or the raised error message, the
number of GET attempts made, and the total seconds slept. -/
structure DownloadResult where
  result : Except String String
  attempts : Nat
  sleepSeconds : Nat
deriving Repr

/-- Embeds the `while retry_count < max_retries` loop of lines 848-904.
`outcomes n` is the outcome of the `n`-th GET attempt (0-based); `url` is only
used to format error messages, exactly as in the source.  The loop counter is
carried as `remaining = max_retries - retry_count`, so that the Python guard
`retry_count < max_retries` is `remaining > 0` and the guard
`retry_count + 1 < max_retries` taken after a retryable failure is
`remaining - 1 > 0`. -/
def downloadLoop (outcomes : Nat → HttpOutcome) (url : String) :
    Nat → Nat → Nat → DownloadResult
  -- loop exhausted with `html is None` (lines 903-904)
  | 0, attempts, sleepSeconds => ⟨.error "无法获取网页内容", attempts, sleepSeconds⟩
  | remaining + 1, attempts, sleepSeconds =>
    match outcomes attempts with
    | .ok html => ⟨.ok html, attempts + 1, sleepSeconds⟩
    | .httpErr status =>
      if status = 403 then
        ⟨.error ("访问被拒绝 (403): 该网站可能阻止了自动访问。\nURL: " ++ url),
          attempts + 1, sleepSeconds⟩
      else if status = 404 then
        ⟨.error ("页面不存在 (404): " ++ url), attempts + 1, sleepSeconds⟩
      else if 500 ≤ status then
        if 0 < remaining then
          downloadLoop outcomes url remaining (attempts + 1) (sleepSeconds + 2)
        else
          ⟨.error ("服务器错误 (" ++ toString status ++ "): " ++ url),
            attempts + 1, sleepSeconds⟩
      else
        ⟨.error ("HTTP 错误 (" ++ toString status ++ "): " ++ url),
          attempts + 1, sleepSeconds⟩
    | .connErr m =>
      if 0 < remaining then
        downloadLoop outcomes url remaining (attempts + 1) (sleepSeconds + 2)
      else
        ⟨.error ("连接失败: 无法连接到服务器。\nURL: " ++ url ++ "\n错误: " ++ m),
          attempts + 1, sleepSeconds⟩
    | .timedOut =>
      if 0 < remaining then
        downloadLoop outcomes url remaining (attempts + 1) (sleepSeconds + 2)
      else
        ⟨.error ("请求超时: " ++ url), attempts + 1, sleepSeconds⟩

/-- The download phase as entered by `_本地提取文章信息`:
`max_retries = 3`, counters start at zero. -/
def localDownload (outcomes : Nat → HttpOutcome) (url : String) : DownloadResult :=
  downloadLoop outcomes url 3 0 0

/-! ## Whitespace normalization `_清理文本`
    (firecrawl_client.py lines 419-426). -/

/-- The no-break space replaced by line 422. -/
def nbsp : Char := '\u00A0'

/-- Line 422: `文本.replace(" ", " ")`. -/
def deNbsp (cs : List Char) : List Char :=
  cs.map (fun c => if c = nbsp then ' ' else c)

/-- Line 423: `re.sub(r"\r\n?", "\n", ...)` — every CRLF pair and every lone
CR becomes a single LF (the regex scan is leftmost and `\n?` greedy). -/
def fixCRLF : List Char → List Char
  | [] => []
  | [c] => if c = '\r' then ['\n'] else [c]
  | c :: d :: rest =>
    if c = '\r' then
      if d = '\n' then '\n' :: fixCRLF rest
      else '\n' :: fixCRLF (d :: rest)
    else c :: fixCRLF (d :: rest)

/-- Worker for line 424 (`re.sub(r"\n{3,}", "\n\n", ...)`): `k` counts the
newlines of the run currently being read; a maximal run of `k` newlines is
emitted as `min k 2` newlines, i.e. runs of three or more collapse to two. -/
def collapseNlAux : List Char → Nat → List Char
  | [], k => List.replicate (min k 2) '\n'
  | c :: rest, k =>
    if c = '\n' then collapseNlAux rest (k + 1)
    else List.replicate (min k 2) '\n' ++ c :: collapseNlAux rest 0

/-- Line 424: collapse runs of three or more LFs to exactly two. -/
def collapseNl (cs : List Char) : List Char :=
  collapseNlAux cs 0

/-- The character class `[ \t]` of line 425. -/
def isSpTab (c : Char) : Bool :=
  c = ' ' || c = '\t'

/-- Emit a finished space/tab run: a run of length at least 2 is replaced with
one space, a shorter run is kept as is (a lone tab survives). -/
def emitRun (pend : List Char) : List Char :=
  if 2 ≤ pend.length then [' '] else pend

/-- Worker for line 425 (`re.sub(r"[ \t]{2,}", " ", ...)`): `pend` is the
space/tab run currently being read. -/
def collapseSpAux : List Char → List Char → List Char
  | [], pend => emitRun pend
  | c :: rest, pend =>
    if isSpTab c then collapseSpAux rest (pend ++ [c])
    else emitRun pend ++ c :: collapseSpAux rest []

/-- Line 425: collapse runs of two or more spaces/tabs to one space. -/
def collapseSp (cs : List Char) : List Char :=
  collapseSpAux cs []

/-- Embeds `_清理文本(文本)` (lines 419-426): the falsy guard, then NBSP
replacement, CR/CRLF normalization, blank-line collapsing, space/tab
collapsing, and a final strip. -/
def cleanText (s : String) : String :=
  if s = "" then ""
  else String.mk (pyStrip (collapseSp (collapseNl (fixCRLF (deNbsp s.toList)))))

/-- Checker: no three consecutive LFs anywhere. -/
def noTripleNl : List Char → Bool
  | a :: b :: c :: rest =>
    !(a == '\n' && b == '\n' && c == '\n') && noTripleNl (b :: c :: rest)
  | _ => true

/-- Checker: no two consecutive space/tab characters anywhere. -/
def noDoubleSpTab : List Char → Bool
  | a :: b :: rest => !(isSpTab a && isSpTab b) && noDoubleSpTab (b :: rest)
  | _ => true

/-! ## The checkpointed batch-extraction loop of `search_web`, mode 3
    (firecrawl_cli.py lines 404-559). -/

/-- Outcome of handling one URL: the fetch-and-save both succeed, the save
fails (returns `(False, error)`), or the fetch raises. -/
inductive ItemOutcome
  | ok
  | saveErr (msg : String)
  | fetchErr (msg : String)
deriving DecidableEq, Repr

/-- The loop-carried state of the extraction loop: the checkpoint's processed
set (`processed_urls`, a set kept here as a duplicate-free insertion-ordered
list), `saved_count`, the `extracted_articles` and `failed_urls`
accumulators, the trace of checkpoint snapshots written by `save_progress`
(each records `processed_urls` and `saved_count` at write time), and the
trace of URLs for which `client.提取文章信息` was actually invoked. -/
structure BatchState where
  processed : List String
  savedCount : Nat
  extracted : List String
  failed : List (String × String)
  checkpoints : List (List String × Nat)
  fetchCalls : List String
deriving DecidableEq, Repr

/-- `processed_urls.add(url)` on the list model of the Python set. -/
def insertUrl (u : String) (l : List String) : List String :=
  if l.contains u then l else l ++ [u]

/-- `save_progress()` (lines 454-466): append the current snapshot to the
checkpoint file (the generation time and the constant query are not
modelled). -/
def saveProgress (st : BatchState) : BatchState :=
  { st with checkpoints := st.checkpoints ++ [(st.processed, st.savedCount)] }

/-- One iteration of the `for i, result in enumerate(results, 1)` loop
(lines 491-543): skip falsy and already-processed URLs; otherwise fetch; on
fetch-and-save success record the article, mark the URL processed, bump
`saved_count` and checkpoint on every 5th success; on save failure only
record the failure; on fetch failure record the failure with the error
truncated to 100 characters, mark the URL processed, and checkpoint. -/
def stepItem (oracle : String → ItemOutcome) (st : BatchState) (url : String) :
    BatchState :=
  if url = "" then st
  else if st.processed.contains url then st
  else
    let st := { st with fetchCalls := st.fetchCalls ++ [url] }
    match oracle url with
    | .ok =>
      let savedCount := st.savedCount + 1
      let st := { st with
        extracted := st.extracted ++ [url],
        processed := insertUrl url st.processed,
        savedCount := savedCount }
      if savedCount % 5 = 0 then saveProgress st else st
    | .saveErr msg =>
      { st with failed := st.failed ++ [(url, "保存失败: " ++ msg)] }
    | .fetchErr msg =>
      saveProgress { st with
        failed := st.failed ++ [(url, msg.take 100)],
        processed := insertUrl url st.processed }

/-- The extraction loop over the result URLs. -/
def runLoop (oracle : String → ItemOutcome) (urls : List String)
    (st : BatchState) : BatchState :=
  urls.foldl (stepItem oracle) st

/-- A run's observable outcome: the final state and whether the progress file
is still on disk afterwards. -/
structure RunOutcome where
  final : BatchState
  progressFileKept : Bool
deriving DecidableEq, Repr

/-- The state at loop entry after reading the progress file (lines 414-429):
the loaded processed set and saved count, with fresh accumulators. -/
def loadState (processed : List String) (savedCount : Nat) : BatchState :=
  ⟨processed, savedCount, [], [], [], []⟩

/-- A run that reaches the end of the loop (lines 545-553): one final
unconditional `save_progress()`, then the progress file is removed. -/
def runBatch (oracle : String → ItemOutcome) (urls : List String)
    (st : BatchState) : RunOutcome :=
  ⟨saveProgress (runLoop oracle urls st), false⟩

/-- A run interrupted by SIGINT after `k` items: `handle_interrupt`
(lines 469-479) flushes the checkpoint with `save_progress()` and exits, and
the progress file is left in place. -/
def runInterruptedAfter (oracle : String → ItemOutcome) (urls : List String)
    (k : Nat) (st : BatchState) : RunOutcome :=
  ⟨saveProgress (runLoop oracle (urls.take k) st), true⟩

/-! ## Specification-side reference definitions -/

/-- Spec-side reading of the publish-time scan: the list of all non-empty
candidate values, selectors in priority order, matching tags in document
order.  The scan of lines 990-1008 is claimed to return the normalization of
the head of this list. -/
def specCandidatesAux (page : List HtmlTag) :
    List (String × List AttrReq) → List String
  | [] => []
  | sel :: rest =>
    ((findAll page sel.1 sel.2).map (tagTimeValue sel.1)).filter (fun s => s ≠ "")
      ++ specCandidatesAux page rest

/-- The run invariant of the batch loop relative to the loaded processed set
`P`, for runs in which no save ever fails: the processed set only grows, it is
exactly `P` together with the URLs recorded as extracted or failed, and the
fetches performed are pairwise distinct URLs outside `P`. -/
def batchInv (P : List String) (st : BatchState) : Prop :=
  (∃ t, st.processed = P ++ t)
  ∧ (∀ u, u ∈ st.processed ↔ (u ∈ P ∨ u ∈ st.extracted ∨ u ∈ st.failed.map Prod.fst))
  ∧ st.fetchCalls.Nodup
  ∧ (∀ u ∈ st.fetchCalls, u ∈ st.processed)
  ∧ (∀ u ∈ st.fetchCalls, u ∉ P)

/-! ## Theorems -/

/-- C6: for every query, the free-search locale hint is `cn-zh` exactly when
the query contains a character in U+4E00..U+9FFF and `wt-wt` otherwise; the
query `"Python 教程"` selects `cn-zh`, `"python tutorial"` selects `wt-wt`,
and the candidate count requested from the engine is `max(limit * 3, 15)`. -/
theorem C6_locale_and_fetch_limit :
    (∀ q : String,
      ((∃ c ∈ q.toList, 0x4e00 ≤ c.toNat ∧ c.toNat ≤ 0x9fff) ↔ searchRegion q = "cn-zh")
      ∧ (¬ (∃ c ∈ q.toList, 0x4e00 ≤ c.toNat ∧ c.toNat ≤ 0x9fff) ↔ searchRegion q = "wt-wt"))
    ∧ searchRegion "Python 教程" = "cn-zh"
    ∧ searchRegion "python tutorial" = "wt-wt"
    ∧ (∀ n : Nat, (searchFetchLimit n = n * 3 ∨ searchFetchLimit n = 15)
        ∧ n * 3 ≤ searchFetchLimit n ∧ 15 ≤ searchFetchLimit n) := by
  have hchar : ∀ q : String, containsChinese q = true ↔
      ∃ c ∈ q.toList, 0x4e00 ≤ c.toNat ∧ c.toNat ≤ 0x9fff := by
    intro q
    simp [containsChinese]
  refine ⟨?_, by decide, by decide, ?_⟩
  · intro q
    by_cases h : containsChinese q = true
    · constructor
      · constructor
        · intro _; simp [searchRegion, h]
        · intro _; exact (hchar q).mp h
      · constructor
        · intro hn; exact absurd ((hchar q).mp h) hn
        · intro hw
          rw [searchRegion, if_pos h] at hw
          exact absurd hw (by decide)
    · have h' : containsChinese q = false := by
        cases hb : containsChinese q with
        | false => rfl
        | true => exact absurd hb h
      constructor
      · constructor
        · intro hex; exact absurd ((hchar q).mpr hex) h
        · intro hc
          rw [searchRegion, if_neg h] at hc
          exact absurd hc (by decide)
      · constructor
        · intro _; simp [searchRegion, h']
        · intro _hw
          intro hex
          exact absurd ((hchar q).mpr hex) h
  · intro n
    unfold searchFetchLimit
    refine ⟨?_, le_max_left _ _, le_max_right _ _⟩
    rcases le_total (n * 3) 15 with h | h
    · right; exact max_eq_right h
    · left; exact max_eq_left h

/-- C7: the filename sanitizer keeps only (Python-)alphanumeric characters,
hyphens and underscores in its output (spaces having been replaced by
underscores after the strip and the 50-character truncation), its output never
exceeds 50 characters and contains no whitespace, and sanitizing
`"A/B: Test?"` yields `"AB_Test"`. -/
theorem C7_safe_title :
    (∀ t : String, ∀ c ∈ (safeTitle t).toList,
      (pyIsAlnum c = true ∨ c = '-' ∨ c = '_') ∧ c.isWhitespace = false)
    ∧ (∀ t : String, (safeTitle t).length ≤ 50)
    ∧ safeTitle "A/B: Test?" = "AB_Test" := by
  have hmem : ∀ (t : String) (c : Char),
      c ∈ ((((t.toList.filter keepChar) |> pyStrip).take 50)) → keepChar c = true := by
    intro t c hc
    have h1 : c ∈ pyStrip (t.toList.filter keepChar) := List.mem_of_mem_take hc
    have h2 : c ∈ t.toList.filter keepChar := by
      have hsub1 : ∀ (l : List Char), ∀ x ∈ pyStrip l, x ∈ l := by
        intro l x hx
        unfold pyStrip at hx
        rw [List.mem_reverse] at hx
        have hx2 := (List.dropWhile_sublist _).mem hx
        rw [List.mem_reverse] at hx2
        exact (List.dropWhile_sublist _).mem hx2
      exact hsub1 _ c h1
    exact (List.mem_filter.mp h2).2
  refine ⟨?_, ?_, by decide⟩
  · intro t c hc
    rw [safeTitle] at hc
    simp only [String.toList] at hc
    rcases List.mem_map.mp hc with ⟨a, ha, hfa⟩
    have hk : keepChar a = true := hmem t a ha
    by_cases hsp : a = ' '
    · rw [← hfa, if_pos hsp]
      exact ⟨Or.inr (Or.inr rfl), by decide⟩
    · rw [← hfa, if_neg hsp]
      have : pyIsAlnum a = true ∨ a = ' ' ∨ a = '-' ∨ a = '_' := by
        have hk' := hk
        unfold keepChar at hk'
        simp only [Bool.or_eq_true, decide_eq_true_eq] at hk'
        tauto
      have halt : pyIsAlnum a = true ∨ a = '-' ∨ a = '_' := by tauto
      refine ⟨halt, ?_⟩
      cases hw : a.isWhitespace with
      | false => rfl
      | true =>
        exfalso
        have ha4 : a = ' ' ∨ a = '\t' ∨ a = '\r' ∨ a = '\n' := by
          have := hw
          simp only [Char.isWhitespace, Bool.or_eq_true, decide_eq_true_eq] at this
          tauto
        rcases ha4 with h | h | h | h
        · exact hsp h
        all_goals (subst h; exact absurd hk (by decide))
  · intro t
    rw [safeTitle]
    have : (String.mk ((((t.toList.filter keepChar) |> pyStrip).take 50).map
        (fun c => if c = ' ' then '_' else c))).length
      = ((((t.toList.filter keepChar) |> pyStrip).take 50).map
        (fun c => if c = ' ' then '_' else c)).length := rfl
    rw [this, List.length_map, List.length_take]
    exact min_le_left _ _

/-- C7 witness: the characterization applied to the claim's own example, at a
concrete character of the output. -/
theorem C7_safe_title_witness :
    (('A' : Char) ∈ (safeTitle "A/B: Test?").toList)
    ∧ ((pyIsAlnum 'A' = true ∨ ('A' : Char) = '-' ∨ ('A' : Char) = '_')
        ∧ ('A' : Char).isWhitespace = false) := by
  have hm : ('A' : Char) ∈ (safeTitle "A/B: Test?").toList := by decide
  exact ⟨hm, C7_safe_title.1 "A/B: Test?" 'A' hm⟩

/-- The single accumulator pass of `_过滤搜索结果` computes exactly the
relevant/irrelevant partition of the de-duplicated candidate list. -/
theorem filterPass_eq (q : String) :
    ∀ (rest f fb : List SearchHit) (seen : List String),
      filterPass q rest f fb seen =
        (f ++ (dedupByUrlAux rest seen).filter (fun i => resultRelevant q i),
         fb ++ (dedupByUrlAux rest seen).filter (fun i => !(resultRelevant q i))) := by
  intro rest
  induction rest with
  | nil => intro f fb seen; simp [filterPass, dedupByUrlAux]
  | cons item rest ih =>
    intro f fb seen
    cases hskip : (item.url = "" || seen.contains item.url)
    · cases hrel : resultRelevant q item
      · simp only [filterPass, dedupByUrlAux, hskip, hrel, Bool.false_eq_true, if_false,
          List.filter_cons, Bool.not_false, if_true]
        rw [ih]
        simp
      · simp only [filterPass, dedupByUrlAux, hskip, hrel, Bool.false_eq_true, if_false,
          List.filter_cons, Bool.not_true, if_true]
        rw [ih]
        simp
    · simp only [filterPass, dedupByUrlAux, hskip, if_true]
      exact ih f fb seen

/-- `_过滤搜索结果` equals the spec-side pipeline: de-duplicate keeping first
occurrences, keep the relevant candidates in input order, append just enough
irrelevant ones to reach the target, and cap at the target. -/
theorem filterSearchResults_eq (q : String) (raw : List SearchHit) (n : Nat) :
    filterSearchResults q raw n =
      ((dedupByUrl raw).filter (fun i => resultRelevant q i)
        ++ ((dedupByUrl raw).filter (fun i => !(resultRelevant q i))).take
             (n - ((dedupByUrl raw).filter (fun i => resultRelevant q i)).length)).take n := by
  unfold filterSearchResults dedupByUrl
  rcases eq_or_ne raw [] with h | h
  · subst h; simp [dedupByUrlAux]
  · rw [if_neg h, filterPass_eq]
    simp only [List.nil_append]
    split
    · rfl
    · next hlen =>
      have hz : n - ((dedupByUrlAux raw []).filter (fun i => resultRelevant q i)).length = 0 := by
        omega
      rw [hz, List.take_zero, List.append_nil]

/-- The de-duplicated candidate list has pairwise distinct, non-empty urls,
none of which was in the initial seen set. -/
theorem dedupByUrlAux_nodup :
    ∀ (rest : List SearchHit) (seen : List String),
      ((dedupByUrlAux rest seen).map SearchHit.url).Nodup
      ∧ ∀ u ∈ (dedupByUrlAux rest seen).map SearchHit.url,
          seen.contains u = false ∧ u ≠ "" := by
  intro rest
  induction rest with
  | nil => intro seen; simp [dedupByUrlAux]
  | cons item rest ih =>
    intro seen
    cases hskip : (item.url = "" || seen.contains item.url)
    · have hskip' : ¬ item.url = "" ∧ item.url ∉ seen := by simpa using hskip
      have hns : seen.contains item.url = false := by simpa using hskip'.2
      obtain ⟨hnd, havoid⟩ := ih (seen ++ [item.url])
      simp only [dedupByUrlAux, hskip, Bool.false_eq_true, if_false, List.map_cons]
      constructor
      · rw [List.nodup_cons]
        refine ⟨?_, hnd⟩
        intro hmem
        have h2 := (havoid _ hmem).1
        simp at h2
      · intro u hu
        rcases List.mem_cons.mp hu with h | h
        · subst h; exact ⟨hns, hskip'.1⟩
        · have h2 := havoid _ h
          refine ⟨?_, h2.2⟩
          have hnm : u ∉ seen ∧ ¬ u = item.url := by simpa using h2.1
          simpa using hnm.1
    · simp only [dedupByUrlAux, hskip, if_true]
      exact ih seen

/-- C4: the free-search result filter de-duplicates by url keeping first
occurrences, returns the relevant candidates first in input order followed by
just enough irrelevant ones to reach the requested count, returns pairwise
distinct urls, never returns more than the requested count, and on candidates
`[{url:="a", title:="Python Guide"}, {url:="b", title:="Cooking"}]` with query
`"python"` and limit 1 it returns exactly the `"a"` candidate. -/
theorem C4_filter_pipeline :
    (∀ (q : String) (raw : List SearchHit) (n : Nat),
      filterSearchResults q raw n =
        ((dedupByUrl raw).filter (fun i => resultRelevant q i)
          ++ ((dedupByUrl raw).filter (fun i => !(resultRelevant q i))).take
               (n - ((dedupByUrl raw).filter (fun i => resultRelevant q i)).length)).take n)
    ∧ (∀ (q : String) (raw : List SearchHit) (n : Nat),
        (filterSearchResults q raw n).length ≤ n)
    ∧ (∀ (q : String) (raw : List SearchHit) (n : Nat),
        ((filterSearchResults q raw n).map SearchHit.url).Nodup)
    ∧ filterSearchResults "python"
        [⟨"a", "Python Guide", ""⟩, ⟨"b", "Cooking", ""⟩] 1
        = [⟨"a", "Python Guide", ""⟩] := by
  refine ⟨filterSearchResults_eq, ?_, ?_, by decide⟩
  · intro q raw n
    rw [filterSearchResults_eq]
    calc (((dedupByUrl raw).filter (fun i => resultRelevant q i)
          ++ ((dedupByUrl raw).filter (fun i => !(resultRelevant q i))).take
               (n - ((dedupByUrl raw).filter (fun i => resultRelevant q i)).length)).take n).length
        = min n (((dedupByUrl raw).filter (fun i => resultRelevant q i)
          ++ ((dedupByUrl raw).filter (fun i => !(resultRelevant q i))).take
               (n - ((dedupByUrl raw).filter (fun i => resultRelevant q i)).length)).length) := by
          rw [List.length_take]
      _ ≤ n := min_le_left _ _
  · intro q raw n
    rw [filterSearchResults_eq]
    have hndm : ((dedupByUrl raw).map SearchHit.url).Nodup := (dedupByUrlAux_nodup raw []).1
    set ded := dedupByUrl raw with hd
    set rel := ded.filter (fun i => resultRelevant q i) with hr
    set irr := ded.filter (fun i => !(resultRelevant q i)) with hi
    have hmain : ((rel ++ irr.take (n - rel.length)).map SearchHit.url).Nodup := by
      rw [List.map_append, List.nodup_append]
      refine ⟨?_, ?_, ?_⟩
      · exact List.Nodup.sublist
          (List.Sublist.map SearchHit.url (List.filter_sublist ded)) hndm
      · exact List.Nodup.sublist
          (List.Sublist.map SearchHit.url
            ((List.take_sublist _ _).trans (List.filter_sublist ded))) hndm
      · intro u hu1 hu2
        rcases List.mem_map.mp hu1 with ⟨x, hx, hxu⟩
        rcases List.mem_map.mp hu2 with ⟨y, hy, hyu⟩
        have hy' : y ∈ irr := List.mem_of_mem_take hy
        have hxd : x ∈ ded := (List.mem_filter.mp hx).1
        have hyd : y ∈ ded := (List.mem_filter.mp hy').1
        have hxp : resultRelevant q x = true := by
          have := (List.mem_filter.mp hx).2
          simpa using this
        have hyp : resultRelevant q y = false := by
          have := (List.mem_filter.mp hy').2
          simpa using this
        have hxy : x = y :=
          List.inj_on_of_nodup_map hndm hxd hyd (hxu.trans hyu.symm)
        rw [hxy, hyp] at hxp
        exact absurd hxp (by decide)
    exact List.Nodup.sublist (List.Sublist.map SearchHit.url (List.take_sublist _ _)) hmain

/-- Everything kept by the deduplication pass comes from the input list. -/
theorem dedupByUrlAux_subset :
    ∀ (rest : List SearchHit) (seen : List String), ∀ x ∈ dedupByUrlAux rest seen, x ∈ rest := by
  intro rest
  induction rest with
  | nil => intro seen x hx; simp [dedupByUrlAux] at hx
  | cons item rest ih =>
    intro seen x hx
    cases hskip : (item.url = "" || seen.contains item.url)
    · simp only [dedupByUrlAux, hskip, Bool.false_eq_true, if_false] at hx
      rcases List.mem_cons.mp hx with h | h
      · exact h ▸ List.mem_cons_self _ _
      · exact List.mem_cons_of_mem _ (ih _ _ h)
    · simp only [dedupByUrlAux, hskip, if_true] at hx
      exact List.mem_cons_of_mem _ (ih _ _ hx)

/-- The relevance filter only returns candidates from its input. -/
theorem filterSearchResults_subset (q : String) (raw : List SearchHit) (n : Nat) :
    ∀ x ∈ filterSearchResults q raw n, x ∈ raw := by
  intro x hx
  rw [filterSearchResults_eq] at hx
  have hx1 := List.mem_of_mem_take hx
  rcases List.mem_append.mp hx1 with h | h
  · exact dedupByUrlAux_subset _ _ _ ((List.mem_filter.mp h).1)
  · exact dedupByUrlAux_subset _ _ _ ((List.mem_filter.mp (List.mem_of_mem_take h)).1)

/-- A candidate surviving normalization has an http(s) url and a non-empty
title. -/
theorem buildRawHit_props (o : Option RawResult) (hit : SearchHit)
    (h : buildRawHit o = some hit) :
    (strStartsWith hit.url "http://" = true ∨ strStartsWith hit.url "https://" = true)
    ∧ hit.title ≠ "" := by
  cases o with
  | none => simp [buildRawHit] at h
  | some r =>
    simp only [buildRawHit] at h
    split at h
    · next hcond =>
      have h2 : SearchHit.mk (firstTruthy [r.href, r.url])
          (if firstTruthy [r.title, r.text] = "" then "无标题"
           else firstTruthy [r.title, r.text])
          (firstTruthy [r.body, r.description, r.snippet]) = hit :=
        Option.some.inj h
      subst h2
      simp only [Bool.and_eq_true, Bool.or_eq_true] at hcond
      refine ⟨hcond.2, ?_⟩
      split
      · simp
      · next hne => simpa using hne
    · exact absurd h (by simp)

/-- C10: every hit produced by the free-search path comes from the normalized
raw candidate list (raw candidates with missing or non-http(s) urls having
been discarded before the relevance filter runs), its url starts with
`http://` or `https://`, and its title is non-empty (an empty title having
been replaced by the `无标题` placeholder).  The description field is a plain
string by construction, never `None`. -/
theorem C10_free_search_hits (q : String) (rs : List (Option RawResult)) (n : Nat) :
    ∀ hit ∈ freeSearchHits q rs n,
      hit ∈ rs.filterMap buildRawHit
      ∧ (strStartsWith hit.url "http://" = true ∨ strStartsWith hit.url "https://" = true)
      ∧ hit.title ≠ "" := by
  intro hit hmem
  have hraw : hit ∈ rs.filterMap buildRawHit :=
    filterSearchResults_subset _ _ _ _ hmem
  rcases List.mem_filterMap.mp hraw with ⟨o, _, hbuild⟩
  exact ⟨hraw, buildRawHit_props o hit hbuild⟩

/-- C10 witness: a concrete engine result (url only, no title) passes through
the free-search path and the theorem's conclusions hold for it. -/
theorem C10_free_search_hits_witness :
    ((⟨"http://a", "无标题", ""⟩ : SearchHit) ∈ freeSearchHits "python"
        [some ⟨some "http://a", none, none, none, none, none, none⟩] 1)
    ∧ ((⟨"http://a", "无标题", ""⟩ : SearchHit) ∈
        [some (⟨some "http://a", none, none, none, none, none, none⟩ : RawResult)].filterMap
          buildRawHit
      ∧ (strStartsWith "http://a" "http://" = true ∨ strStartsWith "http://a" "https://" = true)
      ∧ ("无标题" : String) ≠ "") := by
  have hm : (⟨"http://a", "无标题", ""⟩ : SearchHit) ∈ freeSearchHits "python"
      [some ⟨some "http://a", none, none, none, none, none, none⟩] 1 := by decide
  exact ⟨hm, C10_free_search_hits "python"
    [some ⟨some "http://a", none, none, none, none, none, none⟩] 1 _ hm⟩

/-- `firstNonEmptyStr` returns the head of the non-empty entries. -/
theorem firstNonEmptyStr_eq (l : List String) :
    firstNonEmptyStr l = (l.filter (fun s => s ≠ "")).head? := by
  induction l with
  | nil => rfl
  | cons s rest ih =>
    by_cases h : s = ""
    · simp [firstNonEmptyStr, h, List.filter_cons, ih]
    · simp [firstNonEmptyStr, h, List.filter_cons]

/-- The nested scan loop with its two `break`s returns the normalization of
the first non-empty candidate value in priority order, for any selector
list. -/
theorem scanTimeSelectors_eq (parse : String → Option String) (page : List HtmlTag) :
    ∀ sels, scanTimeSelectors parse page sels =
      (match (specCandidatesAux page sels).head? with
       | some v => normalizeTime parse v
       | none => "") := by
  intro sels
  induction sels with
  | nil => rfl
  | cons sel rest ih =>
    rw [scanTimeSelectors, specCandidatesAux, firstNonEmptyStr_eq]
    cases hh : (((findAll page sel.1 sel.2).map (tagTimeValue sel.1)).filter
        (fun s => s ≠ "")).head? with
    | none =>
      have hnil : ((findAll page sel.1 sel.2).map (tagTimeValue sel.1)).filter
          (fun s => s ≠ "") = [] := List.head?_eq_none_iff.mp hh
      rw [hnil, List.nil_append]
      exact ih
    | some v =>
      rcases List.head?_eq_some_iff.mp hh with ⟨t, ht⟩
      rw [ht, List.cons_append]
      rfl

/-- C8: the local extraction's publish time is the normalization of the first
non-empty value found by scanning the fixed priority list of selectors
(`article:published_time` first, as the head of the selector list), and the
example page carrying
`<meta property="article:published_time" content="2024-01-02T10:00:00Z">`
yields `publish_time = "2024-01-02 10:00:00"`. -/
theorem C8_publish_time :
    (∀ (parse : String → Option String) (page : List HtmlTag),
      extractPublishTime parse page =
        (match (specCandidatesAux page timeSelectors).head? with
         | some v => normalizeTime parse v
         | none => ""))
    ∧ timeSelectors.head? = some ("meta", [.eqAttr "property" "article:published_time"])
    ∧ publishTimeField isoNormalize
        [⟨"meta", [("property", "article:published_time"), ("content", "2024-01-02T10:00:00Z")]⟩]
        = "2024-01-02 10:00:00" := by
  refine ⟨?_, rfl, by decide⟩
  intro parse page
  exact scanTimeSelectors_eq parse page timeSelectors

/-- Projection of a literal download result. -/
theorem downloadResult_attempts (r : Except String String) (a sl : Nat) :
    (DownloadResult.mk r a sl).attempts = a := rfl

/-- Projection of a literal download result. -/
theorem downloadResult_sleepSeconds (r : Except String String) (a sl : Nat) :
    (DownloadResult.mk r a sl).sleepSeconds = sl := rfl

/-- One unfolding step of the download loop when at least one attempt is
left. -/
theorem downloadLoop_succ_eq (outcomes : Nat → HttpOutcome) (url : String)
    (n att slp : Nat) :
    downloadLoop outcomes url (n+1) att slp =
      (match outcomes att with
       | .ok html => ⟨.ok html, att + 1, slp⟩
       | .httpErr status =>
         if status = 403 then
           ⟨.error ("访问被拒绝 (403): 该网站可能阻止了自动访问。\nURL: " ++ url), att + 1, slp⟩
         else if status = 404 then
           ⟨.error ("页面不存在 (404): " ++ url), att + 1, slp⟩
         else if 500 ≤ status then
           if 0 < n then downloadLoop outcomes url n (att + 1) (slp + 2)
           else ⟨.error ("服务器错误 (" ++ toString status ++ "): " ++ url), att + 1, slp⟩
         else ⟨.error ("HTTP 错误 (" ++ toString status ++ "): " ++ url), att + 1, slp⟩
       | .connErr m =>
         if 0 < n then downloadLoop outcomes url n (att + 1) (slp + 2)
         else ⟨.error ("连接失败: 无法连接到服务器。\nURL: " ++ url ++ "\n错误: " ++ m), att + 1, slp⟩
       | .timedOut =>
         if 0 < n then downloadLoop outcomes url n (att + 1) (slp + 2)
         else ⟨.error ("请求超时: " ++ url), att + 1, slp⟩) := rfl

/-- The download loop entered with at least one attempt left makes between 1
and `n+1` further GET attempts, sleeps exactly 2 seconds per retry (i.e. per
attempt after the first), and re-attempts only after a 5xx, connection or
timeout failure of its first attempt. -/
theorem downloadLoop_spec (outcomes : Nat → HttpOutcome) (url : String) :
    ∀ (n att slp : Nat),
      (att + 1 ≤ (downloadLoop outcomes url (n+1) att slp).attempts
        ∧ (downloadLoop outcomes url (n+1) att slp).attempts ≤ att + (n+1))
      ∧ (downloadLoop outcomes url (n+1) att slp).sleepSeconds
          = slp + 2 * ((downloadLoop outcomes url (n+1) att slp).attempts - att - 1)
      ∧ (att + 2 ≤ (downloadLoop outcomes url (n+1) att slp).attempts →
          (∃ s, outcomes att = .httpErr s ∧ 500 ≤ s)
          ∨ (∃ m, outcomes att = .connErr m) ∨ outcomes att = .timedOut) := by
  intro n
  induction n with
  | zero =>
    intro att slp
    rw [downloadLoop_succ_eq]
    rcases h0 : outcomes att with h | s0 | m0 | _ <;>
        simp only [downloadResult_attempts, downloadResult_sleepSeconds]
    · exact ⟨⟨by omega, by omega⟩, by omega, fun hc => absurd hc (by omega)⟩
    · split_ifs with h1 h2 h3 h4 <;>
        first
        | exact absurd h4 (by omega)
        | (simp only [downloadResult_attempts, downloadResult_sleepSeconds]
           exact ⟨⟨by omega, by omega⟩, by omega, fun hc => absurd hc (by omega)⟩)
    · split_ifs with h1 <;>
        first
        | exact absurd h1 (by omega)
        | (simp only [downloadResult_attempts, downloadResult_sleepSeconds]
           exact ⟨⟨by omega, by omega⟩, by omega, fun hc => absurd hc (by omega)⟩)
    · split_ifs with h1 <;>
        first
        | exact absurd h1 (by omega)
        | (simp only [downloadResult_attempts, downloadResult_sleepSeconds]
           exact ⟨⟨by omega, by omega⟩, by omega, fun hc => absurd hc (by omega)⟩)
  | succ n ih =>
    intro att slp
    rw [downloadLoop_succ_eq]
    rcases h0 : outcomes att with h | s0 | m0 | _ <;>
        simp only [downloadResult_attempts, downloadResult_sleepSeconds]
    · exact ⟨⟨by omega, by omega⟩, by omega, fun hc => absurd hc (by omega)⟩
    · split_ifs with h1 h2 h3 h4
      · simp only [downloadResult_attempts, downloadResult_sleepSeconds]
        exact ⟨⟨by omega, by omega⟩, by omega, fun hc => absurd hc (by omega)⟩
      · simp only [downloadResult_attempts, downloadResult_sleepSeconds]
        exact ⟨⟨by omega, by omega⟩, by omega, fun hc => absurd hc (by omega)⟩
      · obtain ⟨⟨hlo, hhi⟩, hslp, -⟩ := ih (att + 1) (slp + 2)
        exact ⟨⟨by omega, by omega⟩, by omega, fun _ => Or.inl ⟨s0, rfl, h3⟩⟩
      · exact absurd (by omega : 0 < n + 1) h4
      · simp only [downloadResult_attempts, downloadResult_sleepSeconds]
        exact ⟨⟨by omega, by omega⟩, by omega, fun hc => absurd hc (by omega)⟩
    · split_ifs with h1
      · obtain ⟨⟨hlo, hhi⟩, hslp, -⟩ := ih (att + 1) (slp + 2)
        exact ⟨⟨by omega, by omega⟩, by omega, fun _ => Or.inr (Or.inl ⟨m0, rfl⟩)⟩
      · exact absurd (by omega : 0 < n + 1) h1
    · split_ifs with h1
      · obtain ⟨⟨hlo, hhi⟩, hslp, -⟩ := ih (att + 1) (slp + 2)
        exact ⟨⟨by omega, by omega⟩, by omega, fun _ => Or.inr (Or.inr (by trivial))⟩
      · exact absurd (by omega : 0 < n + 1) h1

/-- C5 counterexample: with every GET attempt timing out — a retryable error,
for which the claim's "retried up to 3 times" predicts a 4th attempt — the
local download loop performs exactly 3 GET attempts (the first try plus only
2 retries), sleeps 2 seconds before each of the two retries, and then raises.
-/
theorem C5_counterexample :
    localDownload (fun _ => .timedOut) "http://x"
      = ⟨.error ("请求超时: " ++ "http://x"), 3, 4⟩ := rfl

/-- C5 (amended): the local download makes at most 3 GET attempts in total
(at most 2 retries), each retry is preceded by a 2-second sleep (total sleep
`2 * (attempts - 1)`), a second attempt happens only after a 5xx, connection
or timeout failure, and a 403 or 404 on the first attempt is terminal after
exactly one attempt and no sleep, with distinct human-readable causes. -/
theorem C5_amended (outcomes : Nat → HttpOutcome) (url : String) :
    (localDownload outcomes url).attempts ≤ 3
    ∧ (localDownload outcomes url).sleepSeconds
        = 2 * ((localDownload outcomes url).attempts - 1)
    ∧ (2 ≤ (localDownload outcomes url).attempts →
        (∃ s, outcomes 0 = .httpErr s ∧ 500 ≤ s)
        ∨ (∃ m, outcomes 0 = .connErr m) ∨ outcomes 0 = .timedOut)
    ∧ (outcomes 0 = .httpErr 403 →
        localDownload outcomes url =
          ⟨.error ("访问被拒绝 (403): 该网站可能阻止了自动访问。\nURL: " ++ url), 1, 0⟩)
    ∧ (outcomes 0 = .httpErr 404 →
        localDownload outcomes url = ⟨.error ("页面不存在 (404): " ++ url), 1, 0⟩)
    ∧ ("访问被拒绝 (403): 该网站可能阻止了自动访问。\nURL: " ++ url
        ≠ "页面不存在 (404): " ++ url) := by
  obtain ⟨⟨hlo, hhi⟩, hslp, hretry⟩ := downloadLoop_spec outcomes url 2 0 0
  refine ⟨by simpa [localDownload] using hhi, by simpa [localDownload] using hslp,
    by simpa [localDownload] using hretry, ?_, ?_, ?_⟩
  · intro h0
    rw [localDownload, downloadLoop_succ_eq, h0]
    rfl
  · intro h0
    rw [localDownload, downloadLoop_succ_eq, h0]
    rfl
  · intro h
    have h2 := congrArg String.length h
    rw [String.length_append, String.length_append] at h2
    have e1 : ("访问被拒绝 (403): 该网站可能阻止了自动访问。\nURL: " : String).length = 32 := rfl
    have e2 : ("页面不存在 (404): " : String).length = 13 := rfl
    rw [e1, e2] at h2
    omega

/-- C5 witness: the amended theorem applied to a concrete oracle that
returns 403 on the first attempt. -/
theorem C5_amended_witness :
    localDownload (fun _ => HttpOutcome.httpErr 403) "u"
      = ⟨.error ("访问被拒绝 (403): 该网站可能阻止了自动访问。\nURL: " ++ "u"), 1, 0⟩ :=
  (C5_amended (fun _ => HttpOutcome.httpErr 403) "u").2.2.2.1 rfl

/-- An item with a falsy url is skipped. -/
theorem stepItem_skip_empty (oracle : String → ItemOutcome) (st : BatchState) :
    stepItem oracle st "" = st := by
  simp [stepItem]

/-- An already-processed url is skipped without fetching. -/
theorem stepItem_skip_mem (oracle : String → ItemOutcome) (st : BatchState)
    (u : String) (h : st.processed.contains u = true) :
    stepItem oracle st u = st := by
  by_cases hu : u = ""
  · subst hu; simp [stepItem]
  · unfold stepItem
    rw [if_neg hu, if_pos h]

/-- The success branch of the loop body. -/
theorem stepItem_ok (oracle : String → ItemOutcome) (st : BatchState) (u : String)
    (hu : u ≠ "") (hm : st.processed.contains u = false) (ho : oracle u = .ok) :
    stepItem oracle st u =
      (if (st.savedCount + 1) % 5 = 0 then
        saveProgress ⟨st.processed ++ [u], st.savedCount + 1, st.extracted ++ [u],
          st.failed, st.checkpoints, st.fetchCalls ++ [u]⟩
       else ⟨st.processed ++ [u], st.savedCount + 1, st.extracted ++ [u],
          st.failed, st.checkpoints, st.fetchCalls ++ [u]⟩) := by
  simp only [stepItem, hu, hm, if_false, Bool.false_eq_true, ho, insertUrl]

/-- The save-failure branch of the loop body: the url is not marked
processed and no checkpoint is written. -/
theorem stepItem_saveErr (oracle : String → ItemOutcome) (st : BatchState)
    (u msg : String)
    (hu : u ≠ "") (hm : st.processed.contains u = false) (ho : oracle u = .saveErr msg) :
    stepItem oracle st u =
      ⟨st.processed, st.savedCount, st.extracted,
        st.failed ++ [(u, "保存失败: " ++ msg)], st.checkpoints, st.fetchCalls ++ [u]⟩ := by
  simp only [stepItem, hu, hm, if_false, Bool.false_eq_true, ho]

/-- The fetch-failure branch of the loop body: the url is marked processed,
the error is truncated to 100 characters, and a checkpoint is written. -/
theorem stepItem_fetchErr (oracle : String → ItemOutcome) (st : BatchState)
    (u msg : String)
    (hu : u ≠ "") (hm : st.processed.contains u = false) (ho : oracle u = .fetchErr msg) :
    stepItem oracle st u =
      saveProgress ⟨st.processed ++ [u], st.savedCount, st.extracted,
        st.failed ++ [(u, msg.take 100)], st.checkpoints, st.fetchCalls ++ [u]⟩ := by
  simp only [stepItem, hu, hm, if_false, Bool.false_eq_true, ho, insertUrl]

/-- C1 counterexample: an item whose save fails is NOT added to the
checkpoint's processed set (so it will be retried on a resumed run), and the
recorded save-failure message is `保存失败: ` + the full error, not truncated
to 100 characters (with a 120-character error the recorded message has 126
characters). -/
theorem C1_counterexample :
    (stepItem (fun _ => ItemOutcome.saveErr "boom") (loadState [] 0) "u").processed = []
    ∧ (stepItem (fun _ => ItemOutcome.saveErr "boom") (loadState [] 0) "u").failed
        = [("u", "保存失败: boom")]
    ∧ (stepItem (fun _ => ItemOutcome.saveErr (String.mk (List.replicate 120 'x')))
        (loadState [] 0) "u").failed.map (fun p => p.2.length) = [126] := by
  exact ⟨rfl, rfl, rfl⟩

/-- C1 (amended): for an item whose fetch fails, the URL is added to the
processed set, the failure is recorded with the error truncated to 100
characters, and a checkpoint is written; for an item whose save fails, the
failure is recorded as `保存失败: ` + the untruncated error but the URL is
not added to the processed set; in both cases the loop simply continues with
the remaining items. -/
theorem C1_amended (oracle : String → ItemOutcome) (st : BatchState) (u msg : String)
    (hu : u ≠ "") (hmem : st.processed.contains u = false) :
    (oracle u = .fetchErr msg →
      (stepItem oracle st u).processed = st.processed ++ [u]
      ∧ (stepItem oracle st u).failed = st.failed ++ [(u, msg.take 100)]
      ∧ (stepItem oracle st u).checkpoints
          = st.checkpoints ++ [(st.processed ++ [u], st.savedCount)])
    ∧ (oracle u = .saveErr msg →
      (stepItem oracle st u).processed = st.processed
      ∧ (stepItem oracle st u).failed = st.failed ++ [(u, "保存失败: " ++ msg)]
      ∧ (stepItem oracle st u).checkpoints = st.checkpoints)
    ∧ (∀ rest, runLoop oracle (u :: rest) st = runLoop oracle rest (stepItem oracle st u)) := by
  refine ⟨?_, ?_, fun rest => rfl⟩
  · intro ho
    rw [stepItem_fetchErr oracle st u msg hu hmem ho]
    exact ⟨rfl, rfl, rfl⟩
  · intro ho
    rw [stepItem_saveErr oracle st u msg hu hmem ho]
    exact ⟨rfl, rfl, rfl⟩

/-- C1 witness: the amended theorem applied to a concrete failing fetch and a
concrete failing save. -/
theorem C1_amended_witness :
    ((stepItem (fun _ => ItemOutcome.fetchErr "E") (loadState [] 0) "u").processed = [] ++ ["u"]
      ∧ (stepItem (fun _ => ItemOutcome.fetchErr "E") (loadState [] 0) "u").failed
          = [] ++ [("u", ("E" : String).take 100)]
      ∧ (stepItem (fun _ => ItemOutcome.fetchErr "E") (loadState [] 0) "u").checkpoints
          = [] ++ [([] ++ ["u"], 0)])
    ∧ ((stepItem (fun _ => ItemOutcome.saveErr "S") (loadState [] 0) "v").processed = []
      ∧ (stepItem (fun _ => ItemOutcome.saveErr "S") (loadState [] 0) "v").failed
          = [] ++ [("v", "保存失败: " ++ "S")]
      ∧ (stepItem (fun _ => ItemOutcome.saveErr "S") (loadState [] 0) "v").checkpoints = []) := by
  constructor
  · exact (C1_amended (fun _ => ItemOutcome.fetchErr "E") (loadState [] 0) "u" "E"
      (by decide) (by decide)).1 rfl
  · exact (C1_amended (fun _ => ItemOutcome.saveErr "S") (loadState [] 0) "v" "S"
      (by decide) (by decide)).2.1 rfl

/-- One loop iteration preserves the batch-run invariant when no save ever
fails. -/
theorem batchInv_step (oracle : String → ItemOutcome) (P : List String)
    (st : BatchState) (hns : ∀ u m, oracle u ≠ .saveErr m)
    (hinv : batchInv P st) (u : String) :
    batchInv P (stepItem oracle st u) := by
  obtain ⟨⟨t, hproc⟩, hiff, hnd, hsub, havoid⟩ := hinv
  by_cases hu : u = ""
  · subst hu; rw [stepItem_skip_empty]
    exact ⟨⟨t, hproc⟩, hiff, hnd, hsub, havoid⟩
  cases hm : st.processed.contains u with
  | true =>
    rw [stepItem_skip_mem oracle st u hm]
    exact ⟨⟨t, hproc⟩, hiff, hnd, hsub, havoid⟩
  | false =>
    have hmm : u ∉ st.processed := by simpa using hm
    have hfetch : u ∉ st.fetchCalls := fun hin => hmm (hsub u hin)
    have hP : u ∉ P := fun hin => hmm ((hiff u).mpr (Or.inl hin))
    rcases ho : oracle u with _ | msg | msg
    · rw [stepItem_ok oracle st u hu hm ho]
      have hcore : batchInv P ⟨st.processed ++ [u], st.savedCount + 1,
          st.extracted ++ [u], st.failed, st.checkpoints, st.fetchCalls ++ [u]⟩ := by
        refine ⟨⟨t ++ [u], by rw [hproc, List.append_assoc]⟩, ?_, ?_, ?_, ?_⟩
        · intro v
          have hv := hiff v
          simp only [List.mem_append, List.mem_singleton]
          simp only [List.mem_append, List.mem_singleton] at hv ⊢
          tauto
        · rw [List.nodup_append]
          refine ⟨hnd, List.nodup_singleton u, ?_⟩
          intro v hv hvu
          rw [List.mem_singleton] at hvu
          subst hvu
          exact hfetch hv
        · intro v hv
          simp only [List.mem_append, List.mem_singleton] at hv ⊢
          rcases hv with hv | hv
          · exact Or.inl (hsub v hv)
          · exact Or.inr hv
        · intro v hv
          simp only [List.mem_append, List.mem_singleton] at hv
          rcases hv with hv | hv
          · exact havoid v hv
          · exact hv ▸ hP
      split
      · exact hcore
      · exact hcore
    · exact absurd ho (hns u msg)
    · rw [stepItem_fetchErr oracle st u msg hu hm ho]
      refine ⟨⟨t ++ [u], by simp only [saveProgress]; rw [hproc, List.append_assoc]⟩, ?_, ?_, ?_, ?_⟩
      · intro v
        have hv := hiff v
        simp only [saveProgress, List.map_append, List.mem_append, List.mem_singleton,
          List.map_cons, List.map_nil]
        simp only [List.mem_append, List.mem_singleton] at hv ⊢
        tauto
      · show (st.fetchCalls ++ [u]).Nodup
        rw [List.nodup_append]
        refine ⟨hnd, List.nodup_singleton u, ?_⟩
        intro v hv hvu
        rw [List.mem_singleton] at hvu
        subst hvu
        exact hfetch hv
      · intro v hv
        simp only [saveProgress, List.mem_append, List.mem_singleton] at hv ⊢
        rcases hv with hv | hv
        · exact Or.inl (hsub v hv)
        · exact Or.inr hv
      · intro v hv
        simp only [saveProgress, List.mem_append, List.mem_singleton] at hv
        rcases hv with hv | hv
        · exact havoid v hv
        · exact hv ▸ hP

/-- The batch-run invariant holds at the end of the loop. -/
theorem batchInv_runLoop (oracle : String → ItemOutcome) (P : List String)
    (hns : ∀ u m, oracle u ≠ .saveErr m) :
    ∀ (urls : List String) (st : BatchState),
      batchInv P st → batchInv P (runLoop oracle urls st) := by
  intro urls
  induction urls with
  | nil => intro st h; exact h
  | cons u rest ih =>
    intro st h
    exact ih (stepItem oracle st u) (batchInv_step oracle P st hns h u)

/-- The processed set only grows across one loop iteration. -/
theorem stepItem_processed_mono (oracle : String → ItemOutcome) (st : BatchState)
    (u : String) :
    ∃ t, (stepItem oracle st u).processed = st.processed ++ t := by
  by_cases hu : u = ""
  · subst hu; rw [stepItem_skip_empty]; exact ⟨[], by simp⟩
  cases hm : st.processed.contains u with
  | true => rw [stepItem_skip_mem oracle st u hm]; exact ⟨[], by simp⟩
  | false =>
    rcases ho : oracle u with _ | msg | msg
    · rw [stepItem_ok oracle st u hu hm ho]
      split
      · exact ⟨[u], rfl⟩
      · exact ⟨[u], rfl⟩
    · rw [stepItem_saveErr oracle st u msg hu hm ho]; exact ⟨[], by simp⟩
    · rw [stepItem_fetchErr oracle st u msg hu hm ho]; exact ⟨[u], rfl⟩

/-- The processed set only grows across a whole run. -/
theorem runLoop_processed_mono (oracle : String → ItemOutcome) :
    ∀ (urls : List String) (st : BatchState),
      ∃ t, (runLoop oracle urls st).processed = st.processed ++ t := by
  intro urls
  induction urls with
  | nil => intro st; exact ⟨[], by simp [runLoop]⟩
  | cons u rest ih =>
    intro st
    obtain ⟨t1, h1⟩ := stepItem_processed_mono oracle st u
    obtain ⟨t2, h2⟩ := ih (stepItem oracle st u)
    exact ⟨t1 ++ t2, by
      show (runLoop oracle rest (stepItem oracle st u)).processed = _
      rw [h2, h1, List.append_assoc]⟩

/-- After its own iteration, a non-skippable item's url is processed (when no
save fails). -/
theorem stepItem_mem_processed (oracle : String → ItemOutcome) (st : BatchState)
    (u : String) (hu : u ≠ "") (hns : ∀ v m, oracle v ≠ .saveErr m) :
    u ∈ (stepItem oracle st u).processed := by
  cases hm : st.processed.contains u with
  | true =>
    rw [stepItem_skip_mem oracle st u hm]
    simpa using hm
  | false =>
    rcases ho : oracle u with _ | msg | msg
    · rw [stepItem_ok oracle st u hu hm ho]
      split
      · simp [saveProgress]
      · simp
    · exact absurd ho (hns u msg)
    · rw [stepItem_fetchErr oracle st u msg hu hm ho]
      simp [saveProgress]

/-- Every non-empty url of the run is in the final processed set (when no
save fails). -/
theorem runLoop_covers (oracle : String → ItemOutcome)
    (hns : ∀ v m, oracle v ≠ .saveErr m) :
    ∀ (urls : List String) (st : BatchState),
      (∀ u ∈ urls, u ≠ "") → ∀ u ∈ urls, u ∈ (runLoop oracle urls st).processed := by
  intro urls
  induction urls with
  | nil => intro st _ u hu; cases hu
  | cons v rest ih =>
    intro st hne u hu
    rcases List.mem_cons.mp hu with h | h
    · subst h
      have h1 : u ∈ (stepItem oracle st u).processed :=
        stepItem_mem_processed oracle st u (hne u (List.mem_cons_self _ _)) hns
      obtain ⟨t, ht⟩ := runLoop_processed_mono oracle rest (stepItem oracle st u)
      show u ∈ (runLoop oracle rest (stepItem oracle st u)).processed
      rw [ht]
      exact List.mem_append_left _ h1
    · exact ih (stepItem oracle st v) (fun w hw => hne w (List.mem_cons_of_mem _ hw)) u h

/-- C2 counterexample: an item whose save fails is fetched again by the
resumed run — the same URL is processed in two different runs (its failure is
also recorded twice), refuting "no item is processed twice". -/
theorem C2_counterexample :
    (runInterruptedAfter (fun _ => ItemOutcome.saveErr "e") ["u"] 1
        (loadState [] 0)).final.fetchCalls = ["u"]
    ∧ (runInterruptedAfter (fun _ => ItemOutcome.saveErr "e") ["u"] 1
        (loadState [] 0)).final.failed = [("u", "保存失败: e")]
    ∧ (runInterruptedAfter (fun _ => ItemOutcome.saveErr "e") ["u"] 1
        (loadState [] 0)).progressFileKept = true
    ∧ (runBatch (fun _ => ItemOutcome.saveErr "e") ["u"]
        (loadState
          (runInterruptedAfter (fun _ => ItemOutcome.saveErr "e") ["u"] 1
            (loadState [] 0)).final.processed
          (runInterruptedAfter (fun _ => ItemOutcome.saveErr "e") ["u"] 1
            (loadState [] 0)).final.savedCount)).final.fetchCalls = ["u"]
    ∧ (runBatch (fun _ => ItemOutcome.saveErr "e") ["u"]
        (loadState
          (runInterruptedAfter (fun _ => ItemOutcome.saveErr "e") ["u"] 1
            (loadState [] 0)).final.processed
          (runInterruptedAfter (fun _ => ItemOutcome.saveErr "e") ["u"] 1
            (loadState [] 0)).final.savedCount)).final.failed = [("u", "保存失败: e")] := by
  exact ⟨rfl, rfl, rfl, rfl, rfl⟩

/-- C2 (amended): across a run loaded from checkpoint set `P`, the processed
set only grows — `P` is a prefix of the final set for every oracle, save
failures included, so it is monotonically non-decreasing across resumed
runs; and provided every item URL is non-empty and no save fails, the final
processed set is exactly `P` together with the extracted and failed URLs,
every item URL ends up processed (none skipped silently), and the URLs
actually fetched are pairwise distinct and outside `P` (no item fetched
twice within or across checkpointed runs). -/
theorem C2_amended (oracle : String → ItemOutcome) (urls : List String)
    (P : List String) (k : Nat) :
    (∃ t, (runLoop oracle urls (loadState P k)).processed = P ++ t)
    ∧ ((∀ u ∈ urls, u ≠ "") → (∀ u m, oracle u ≠ ItemOutcome.saveErr m) →
        (∀ u ∈ urls, u ∈ (runLoop oracle urls (loadState P k)).processed)
        ∧ (∀ u, u ∈ (runLoop oracle urls (loadState P k)).processed ↔
            (u ∈ P ∨ u ∈ (runLoop oracle urls (loadState P k)).extracted
              ∨ u ∈ ((runLoop oracle urls (loadState P k)).failed.map Prod.fst)))
        ∧ (runLoop oracle urls (loadState P k)).fetchCalls.Nodup
        ∧ (∀ u ∈ (runLoop oracle urls (loadState P k)).fetchCalls, u ∉ P)) := by
  constructor
  · have hmono := runLoop_processed_mono oracle urls (loadState P k)
    simpa [loadState] using hmono
  · intro hne hns
    have hinv0 : batchInv P (loadState P k) := by
      refine ⟨⟨[], by simp [loadState]⟩, ?_, by simp [loadState], ?_, ?_⟩
      · intro u; simp [loadState]
      · intro u hu; simp [loadState] at hu
      · intro u hu; simp [loadState] at hu
    obtain ⟨_, hiff, hnd, _, havoid⟩ :=
      batchInv_runLoop oracle P hns urls (loadState P k) hinv0
    exact ⟨runLoop_covers oracle hns urls (loadState P k) hne, hiff, hnd, havoid⟩

/-- C2 witness: the amended theorem at two concrete runs — the unconditional
monotonicity conjunct at a run whose only save fails, and the guarded
conjuncts (with both hypotheses discharged) at an all-success run with one
URL already in the checkpoint and one fresh. -/
theorem C2_amended_witness :
    (∃ t, (runLoop (fun _ => ItemOutcome.saveErr "e") ["u"] (loadState ["p"] 0)).processed
      = ["p"] ++ t)
    ∧ (∀ u ∈ ["p", "a"],
        u ∈ (runLoop (fun _ => ItemOutcome.ok) ["p", "a"] (loadState ["p"] 1)).processed)
    ∧ (runLoop (fun _ => ItemOutcome.ok) ["p", "a"] (loadState ["p"] 1)).fetchCalls.Nodup := by
  have h1 := (C2_amended (fun _ => ItemOutcome.saveErr "e") ["u"] ["p"] 0).1
  have h2 := (C2_amended (fun _ => ItemOutcome.ok) ["p", "a"] ["p"] 1).2
    (by intro u hu; fin_cases hu <;> decide)
    (fun u m h => ItemOutcome.noConfusion h)
  exact ⟨h1, h2.1, h2.2.2.1⟩

/-- Running the loop over a concatenation runs it over the parts in order. -/
theorem runLoop_append (oracle : String → ItemOutcome) (xs ys : List String)
    (st : BatchState) :
    runLoop oracle (xs ++ ys) st = runLoop oracle ys (runLoop oracle xs st) := by
  simp [runLoop, List.foldl_append]

/-- A run over already-processed urls changes nothing. -/
theorem runLoop_skips (oracle : String → ItemOutcome) :
    ∀ (urls : List String) (st : BatchState),
      (∀ u ∈ urls, st.processed.contains u = true) → runLoop oracle urls st = st := by
  intro urls
  induction urls with
  | nil => intro st _; rfl
  | cons u rest ih =>
    intro st h
    have h1 : stepItem oracle st u = st :=
      stepItem_skip_mem oracle st u (h u (List.mem_cons_self _ _))
    show runLoop oracle rest (stepItem oracle st u) = st
    rw [h1]
    exact ih st (fun v hv => h v (List.mem_cons_of_mem _ hv))

/-- A non-skipped item is fetched and marked processed (no save failures). -/
theorem stepItem_fresh_proj (oracle : String → ItemOutcome) (st : BatchState)
    (u : String) (hu : u ≠ "") (hm : st.processed.contains u = false)
    (hns : ∀ v m, oracle v ≠ ItemOutcome.saveErr m) :
    (stepItem oracle st u).processed = st.processed ++ [u]
    ∧ (stepItem oracle st u).fetchCalls = st.fetchCalls ++ [u] := by
  rcases ho : oracle u with _ | msg | msg
  · rw [stepItem_ok oracle st u hu hm ho]
    split
    · exact ⟨rfl, rfl⟩
    · exact ⟨rfl, rfl⟩
  · exact absurd ho (hns u msg)
  · rw [stepItem_fetchErr oracle st u msg hu hm ho]
    exact ⟨rfl, rfl⟩

/-- A run over fresh, pairwise distinct, non-empty urls fetches exactly those
urls, in order, and appends them to the processed set (no save failures). -/
theorem runLoop_fresh (oracle : String → ItemOutcome)
    (hns : ∀ u m, oracle u ≠ ItemOutcome.saveErr m) :
    ∀ (urls : List String) (st : BatchState),
      (∀ u ∈ urls, u ≠ "") → urls.Nodup →
      (∀ u ∈ urls, u ∉ st.processed) →
      (runLoop oracle urls st).processed = st.processed ++ urls
      ∧ (runLoop oracle urls st).fetchCalls = st.fetchCalls ++ urls := by
  intro urls
  induction urls with
  | nil => intro st _ _ _; exact ⟨by simp [runLoop], by simp [runLoop]⟩
  | cons u rest ih =>
    intro st hne hnd hdis
    have hu : u ≠ "" := hne u (List.mem_cons_self _ _)
    have hm : st.processed.contains u = false := by
      simpa using hdis u (List.mem_cons_self _ _)
    obtain ⟨hp, hf⟩ := stepItem_fresh_proj oracle st u hu hm hns
    have hdis' : ∀ v ∈ rest, v ∉ (stepItem oracle st u).processed := by
      intro v hv
      rw [hp]
      simp only [List.mem_append, List.mem_singleton]
      rintro (hvp | hvu)
      · exact hdis v (List.mem_cons_of_mem _ hv) hvp
      · exact (List.nodup_cons.mp hnd).1 (hvu ▸ hv)
    obtain ⟨hp2, hf2⟩ := ih (stepItem oracle st u)
      (fun v hv => hne v (List.mem_cons_of_mem _ hv)) (List.nodup_cons.mp hnd).2 hdis'
    constructor
    · show (runLoop oracle rest (stepItem oracle st u)).processed = _
      rw [hp2, hp, List.append_assoc]
      simp
    · show (runLoop oracle rest (stepItem oracle st u)).fetchCalls = _
      rw [hf2, hf, List.append_assoc]
      simp

/-- C3: checkpoint persistence policy.  On a success the checkpoint is
written exactly when the new `saved_count` is a multiple of 5; a run that
reaches the end of the loop writes one final unconditional checkpoint
(recording the final processed set and count) and deletes the progress file;
an interrupted run flushes the same final checkpoint for the items handled so
far and leaves the file in place; and a run resumed from the interrupted
checkpoint fetches exactly the remaining items, in order (provided the urls
are non-empty, pairwise distinct, and no save fails). -/
theorem C3_checkpoint_policy (oracle : String → ItemOutcome) (urls : List String)
    (st : BatchState) (k : Nat) :
    (∀ u, u ≠ "" → st.processed.contains u = false → oracle u = ItemOutcome.ok →
      (stepItem oracle st u).checkpoints =
        (if (st.savedCount + 1) % 5 = 0 then
          st.checkpoints ++ [(st.processed ++ [u], st.savedCount + 1)]
         else st.checkpoints))
    ∧ (runBatch oracle urls st).final.checkpoints
        = (runLoop oracle urls st).checkpoints
            ++ [((runLoop oracle urls st).processed, (runLoop oracle urls st).savedCount)]
    ∧ (runBatch oracle urls st).progressFileKept = false
    ∧ (runInterruptedAfter oracle urls k st).final.checkpoints
        = (runLoop oracle (urls.take k) st).checkpoints
            ++ [((runLoop oracle (urls.take k) st).processed,
                 (runLoop oracle (urls.take k) st).savedCount)]
    ∧ (runInterruptedAfter oracle urls k st).progressFileKept = true
    ∧ (∀ (_ : ∀ u ∈ urls, u ≠ "") (_ : urls.Nodup)
        (_ : ∀ u m, oracle u ≠ ItemOutcome.saveErr m),
        (runBatch oracle urls
          (loadState
            (runInterruptedAfter oracle urls k (loadState [] 0)).final.processed
            (runInterruptedAfter oracle urls k (loadState [] 0)).final.savedCount)).final.fetchCalls
          = urls.drop k) := by
  refine ⟨?_, rfl, rfl, rfl, rfl, ?_⟩
  · intro u hu hm ho
    rw [stepItem_ok oracle st u hu hm ho]
    split_ifs with h
    · rfl
    · rfl
  · intro hne hnd hns
    have hne1 : ∀ u ∈ urls.take k, u ≠ "" :=
      fun u hu => hne u (List.mem_of_mem_take hu)
    have hnd1 : (urls.take k).Nodup := List.Nodup.sublist (List.take_sublist _ _) hnd
    have hr1 : (runInterruptedAfter oracle urls k (loadState [] 0)).final.processed
        = urls.take k := by
      show (runLoop oracle (urls.take k) (loadState [] 0)).processed = urls.take k
      rw [(runLoop_fresh oracle hns (urls.take k) (loadState [] 0) hne1 hnd1
        (by intro u _; simp [loadState])).1]
      simp [loadState]
    set c := (runInterruptedAfter oracle urls k (loadState [] 0)).final.savedCount with hc
    show (runLoop oracle urls
      (loadState (runInterruptedAfter oracle urls k (loadState [] 0)).final.processed c)).fetchCalls
      = urls.drop k
    rw [hr1]
    set st2 := loadState (urls.take k) c with hst2
    have hsplit := List.take_append_drop k urls
    have hdisj : (urls.take k).Disjoint (urls.drop k) := by
      apply List.disjoint_of_nodup_append
      rw [hsplit]
      exact hnd
    conv_lhs => rw [← hsplit]
    rw [runLoop_append]
    rw [runLoop_skips oracle (urls.take k) st2
      (by intro u hu; simp [hst2, loadState]; exact hu)]
    rw [(runLoop_fresh oracle hns (urls.drop k) st2
      (fun u hu => hne u ((List.drop_sublist _ _).mem hu))
      (List.Nodup.sublist (List.drop_sublist _ _) hnd)
      (by
        intro u hu
        simp only [hst2, loadState]
        exact fun hmem => hdisj hmem hu)).2]
    simp [hst2, loadState]

/-- C3 witness: the checkpoint-cadence conjunct at a first success (no write,
since `1 % 5 ≠ 0`), and the resumption conjunct on a concrete interrupted
two-item run (only the second item is fetched on resume). -/
theorem C3_checkpoint_policy_witness :
    (stepItem (fun _ => ItemOutcome.ok) (loadState [] 0) "c").checkpoints =
      (if ((loadState [] 0).savedCount + 1) % 5 = 0 then
        (loadState [] 0).checkpoints
          ++ [((loadState [] 0).processed ++ ["c"], (loadState [] 0).savedCount + 1)]
       else (loadState [] 0).checkpoints)
    ∧ (runBatch (fun _ => ItemOutcome.ok) ["a", "b"]
        (loadState
          (runInterruptedAfter (fun _ => ItemOutcome.ok) ["a", "b"] 1
            (loadState [] 0)).final.processed
          (runInterruptedAfter (fun _ => ItemOutcome.ok) ["a", "b"] 1
            (loadState [] 0)).final.savedCount)).final.fetchCalls
        = List.drop 1 ["a", "b"] := by
  constructor
  · exact (C3_checkpoint_policy (fun _ => ItemOutcome.ok) [] (loadState [] 0) 0).1
      "c" (by decide) (by decide) rfl
  · exact (C3_checkpoint_policy (fun _ => ItemOutcome.ok) ["a", "b"] (loadState [] 0) 1).2.2.2.2.2
      (by intro u hu; fin_cases hu <;> decide)
      (by decide)
      (fun u m h => ItemOutcome.noConfusion h)

/-- NBSP replacement leaves no NBSP behind. -/
theorem deNbsp_no_nbsp (cs : List Char) : ∀ c ∈ deNbsp cs, c ≠ nbsp := by
  intro c hc
  rcases List.mem_map.mp hc with ⟨a, _, hfa⟩
  by_cases h : a = nbsp
  · rw [← hfa, if_pos h]; decide
  · rw [← hfa, if_neg h]; exact h

/-- NBSP replacement is the identity on NBSP-free text. -/
theorem deNbsp_eq_self (cs : List Char) (h : ∀ c ∈ cs, c ≠ nbsp) : deNbsp cs = cs := by
  unfold deNbsp
  have h2 : ∀ a ∈ cs, (fun c => if c = nbsp then ' ' else c) a = a := by
    intro a ha
    exact if_neg (h a ha)
  rw [List.map_congr_left h2, List.map_id']

/-- Every character of the CR-normalized text is from the input or an LF. -/
theorem fixCRLF_chars : ∀ (cs : List Char), ∀ c ∈ fixCRLF cs, c ∈ cs ∨ c = '\n' := by
  intro cs
  induction cs using fixCRLF.induct with
  | case1 => intro c hc; cases hc
  | case2 =>
    intro c hc
    right
    simpa [fixCRLF] using hc
  | case3 c0 hc0 =>
    intro c hc
    simp only [fixCRLF, hc0, if_false] at hc
    exact Or.inl hc
  | case4 rest ih =>
    intro c hc
    simp only [fixCRLF] at hc
    rcases List.mem_cons.mp hc with h | h
    · exact Or.inr h
    · rcases ih c h with h2 | h2
      · exact Or.inl (List.mem_cons_of_mem _ (List.mem_cons_of_mem _ h2))
      · exact Or.inr h2
  | case5 d rest hd ih =>
    intro c hc
    simp only [fixCRLF, hd, if_false] at hc
    rcases List.mem_cons.mp hc with h | h
    · exact Or.inr h
    · rcases ih c h with h2 | h2
      · exact Or.inl (List.mem_cons_of_mem _ h2)
      · exact Or.inr h2
  | case6 c0 d rest hc0 ih =>
    intro c hc
    simp only [fixCRLF, hc0, if_false] at hc
    rcases List.mem_cons.mp hc with h | h
    · exact Or.inl (h ▸ List.mem_cons_self _ _)
    · rcases ih c h with h2 | h2
      · exact Or.inl (List.mem_cons_of_mem _ h2)
      · exact Or.inr h2

/-- CR normalization leaves no CR behind. -/
theorem fixCRLF_no_cr : ∀ (cs : List Char), ∀ c ∈ fixCRLF cs, c ≠ '\r' := by
  intro cs
  induction cs using fixCRLF.induct with
  | case1 => intro c hc; cases hc
  | case2 =>
    intro c hc
    have : c = '\n' := by simpa [fixCRLF] using hc
    subst this; decide
  | case3 c0 hc0 =>
    intro c hc
    simp only [fixCRLF, hc0, if_false] at hc
    have : c = c0 := by simpa using hc
    subst this; exact hc0
  | case4 rest ih =>
    intro c hc
    simp only [fixCRLF] at hc
    rcases List.mem_cons.mp hc with h | h
    · subst h; decide
    · exact ih c h
  | case5 d rest hd ih =>
    intro c hc
    simp only [fixCRLF, hd, if_false] at hc
    rcases List.mem_cons.mp hc with h | h
    · subst h; decide
    · exact ih c h
  | case6 c0 d rest hc0 ih =>
    intro c hc
    simp only [fixCRLF, hc0, if_false] at hc
    rcases List.mem_cons.mp hc with h | h
    · subst h; exact hc0
    · exact ih c h

/-- CR normalization is the identity on CR-free text. -/
theorem fixCRLF_eq_self : ∀ (cs : List Char), (∀ c ∈ cs, c ≠ '\r') → fixCRLF cs = cs := by
  intro cs
  induction cs using fixCRLF.induct with
  | case1 => intro _; rfl
  | case2 => intro h; exact absurd rfl (h '\r' (by simp))
  | case3 c0 hc0 => intro _; simp [fixCRLF, hc0]
  | case4 rest ih => intro h; exact absurd rfl (h '\r' (by simp))
  | case5 d rest hd ih => intro h; exact absurd rfl (h '\r' (by simp))
  | case6 c0 d rest hc0 ih =>
    intro h
    simp only [fixCRLF, hc0, if_false]
    rw [ih (fun x hx => h x (List.mem_cons_of_mem _ hx))]

/-- Removing the head preserves the no-triple-LF property. -/
theorem noTripleNl_tail (a : Char) (l : List Char) (h : noTripleNl (a :: l) = true) :
    noTripleNl l = true := by
  match l with
  | [] => rfl
  | [b] => rfl
  | b :: c :: r =>
    rw [noTripleNl, Bool.and_eq_true] at h
    exact h.2

/-- Prepending a non-LF preserves the no-triple-LF property. -/
theorem noTripleNl_cons (a : Char) (l : List Char) (ha : a ≠ '\n')
    (h : noTripleNl l = true) : noTripleNl (a :: l) = true := by
  match l with
  | [] => rfl
  | [b] => rfl
  | b :: c :: r =>
    rw [noTripleNl, Bool.and_eq_true]
    refine ⟨?_, h⟩
    have h2 : (a == '\n') = false := by simpa using ha
    simp [h2]

/-- A text without LFs trivially has no triple LF. -/
theorem noTripleNl_of_no_nl : ∀ (l : List Char), (∀ c ∈ l, c ≠ '\n') →
    noTripleNl l = true := by
  intro l
  induction l with
  | nil => intro _; rfl
  | cons a l ih =>
    intro h
    exact noTripleNl_cons a l (h a (List.mem_cons_self _ _))
      (ih (fun x hx => h x (List.mem_cons_of_mem _ hx)))

/-- The no-triple-LF property restricts to prefixes. -/
theorem noTripleNl_append_right (t : List Char) :
    ∀ (l : List Char), noTripleNl (l ++ t) = true → noTripleNl l = true := by
  intro l
  induction l using noTripleNl.induct with
  | case1 a b c rest ih =>
    intro h
    rw [List.cons_append, List.cons_append, List.cons_append] at h
    rw [noTripleNl, Bool.and_eq_true] at h
    rw [noTripleNl, Bool.and_eq_true]
    refine ⟨h.1, ih ?_⟩
    rw [List.cons_append, List.cons_append]
    exact h.2
  | case2 x hx =>
    intro _
    match x, hx with
    | [], _ => rfl
    | [a], _ => rfl
    | [a, b], _ => rfl
    | a :: b :: c :: r, hx => exact absurd rfl (hx a b c r)

/-- The no-triple-LF property restricts to suffixes. -/
theorem noTripleNl_append_left (t : List Char) :
    ∀ (l : List Char), noTripleNl (t ++ l) = true → noTripleNl l = true := by
  induction t with
  | nil => intro l h; exact h
  | cons a t ih =>
    intro l h
    rw [List.cons_append] at h
    exact ih l (noTripleNl_tail _ _ h)

/-- With no triple LF, at most two LFs lead the text. -/
theorem noTripleNl_leadNl : ∀ (l : List Char), noTripleNl l = true →
    (l.takeWhile (fun c => c = '\n')).length ≤ 2 := by
  intro l h
  match l with
  | [] => simp
  | [a] =>
    by_cases ha : a = '\n' <;> simp [List.takeWhile_cons, ha]
  | [a, b] =>
    by_cases ha : a = '\n' <;> by_cases hb : b = '\n' <;>
      simp [List.takeWhile_cons, ha, hb]
  | a :: b :: c :: r =>
    by_cases ha : a = '\n'
    · by_cases hb : b = '\n'
      · by_cases hc : c = '\n'
        · exfalso
          subst ha; subst hb; subst hc
          rw [noTripleNl] at h
          simp at h
        · simp [List.takeWhile_cons, ha, hb, hc]
      · simp [List.takeWhile_cons, ha, hb]
    · simp [List.takeWhile_cons, ha]

/-- Every character of the LF-collapsed text is from the input or an LF. -/
theorem collapseNlAux_chars : ∀ (cs : List Char) (k : Nat),
    ∀ c ∈ collapseNlAux cs k, c ∈ cs ∨ c = '\n' := by
  intro cs
  induction cs with
  | nil =>
    intro k c hc
    rw [collapseNlAux] at hc
    exact Or.inr (List.eq_of_mem_replicate hc)
  | cons a rest ih =>
    intro k c hc
    by_cases ha : a = '\n'
    · rw [collapseNlAux, if_pos ha] at hc
      rcases ih (k+1) c hc with h | h
      · exact Or.inl (List.mem_cons_of_mem _ h)
      · exact Or.inr h
    · rw [collapseNlAux, if_neg ha] at hc
      rcases List.mem_append.mp hc with h | h
      · exact Or.inr (List.eq_of_mem_replicate h)
      · rcases List.mem_cons.mp h with h2 | h2
        · exact Or.inl (h2 ▸ List.mem_cons_self _ _)
        · rcases ih 0 c h2 with h3 | h3
          · exact Or.inl (List.mem_cons_of_mem _ h3)
          · exact Or.inr h3

/-- A short LF run has no triple LF. -/
theorem noTripleNl_replicate_le2 (m : Nat) (hm : m ≤ 2) :
    noTripleNl (List.replicate m '\n') = true := by
  have : m = 0 ∨ m = 1 ∨ m = 2 := by omega
  rcases this with rfl | rfl | rfl <;> rfl

/-- Prepending at most two LFs and then a non-LF preserves no-triple-LF. -/
theorem noTripleNl_replicate_append (m : Nat) (hm : m ≤ 2) (c : Char) (l : List Char)
    (hc : c ≠ '\n') (hl : noTripleNl (c :: l) = true) :
    noTripleNl (List.replicate m '\n' ++ c :: l) = true := by
  have hcb : (c == '\n') = false := by simpa using hc
  have h1 : noTripleNl ('\n' :: c :: l) = true := by
    match l with
    | [] => rfl
    | x :: xs =>
      rw [noTripleNl, Bool.and_eq_true]
      exact ⟨by simp [hcb], hl⟩
  have : m = 0 ∨ m = 1 ∨ m = 2 := by omega
  rcases this with rfl | rfl | rfl
  · exact hl
  · exact h1
  · show noTripleNl ('\n' :: '\n' :: c :: l) = true
    rw [noTripleNl, Bool.and_eq_true]
    exact ⟨by simp [hcb], h1⟩

/-- LF collapsing establishes the no-triple-LF property. -/
theorem noTripleNl_collapseNlAux : ∀ (cs : List Char) (k : Nat),
    noTripleNl (collapseNlAux cs k) = true := by
  intro cs
  induction cs with
  | nil =>
    intro k
    rw [collapseNlAux]
    exact noTripleNl_replicate_le2 _ (min_le_right _ _)
  | cons a rest ih =>
    intro k
    by_cases ha : a = '\n'
    · rw [collapseNlAux, if_pos ha]; exact ih (k+1)
    · rw [collapseNlAux, if_neg ha]
      exact noTripleNl_replicate_append _ (min_le_right _ _) a _ ha
        (noTripleNl_cons a _ ha (ih 0))

/-- LF collapsing is the identity when no run of three LFs exists (the
pending count plus the leading run staying within two). -/
theorem collapseNlAux_eq_self : ∀ (cs : List Char) (k : Nat),
    k + (cs.takeWhile (fun c => c = '\n')).length ≤ 2 → noTripleNl cs = true →
    collapseNlAux cs k = List.replicate k '\n' ++ cs := by
  intro cs
  induction cs with
  | nil =>
    intro k hk _
    have hk2 : k ≤ 2 := by simpa using hk
    show List.replicate (min k 2) '\n' = List.replicate k '\n' ++ []
    rw [List.append_nil, min_eq_left hk2]
  | cons a rest ih =>
    intro k hk h
    by_cases ha : a = '\n'
    · rw [collapseNlAux, if_pos ha]
      have hk' : (k+1) + (rest.takeWhile (fun c => c = '\n')).length ≤ 2 := by
        rw [List.takeWhile_cons, if_pos (by simpa using ha)] at hk
        simp at hk
        omega
      rw [ih (k+1) hk' (noTripleNl_tail _ _ h), List.replicate_succ', List.append_assoc]
      subst ha
      rfl
    · rw [collapseNlAux, if_neg ha]
      have hk2 : k ≤ 2 := by omega
      have hlead : (rest.takeWhile (fun c => c = '\n')).length ≤ 2 :=
        noTripleNl_leadNl rest (noTripleNl_tail _ _ h)
      rw [ih 0 (by simpa using hlead) (noTripleNl_tail _ _ h), min_eq_left hk2]
      simp

/-- Removing the head preserves the no-double-space/tab property. -/
theorem noDoubleSpTab_tail (a : Char) (l : List Char)
    (h : noDoubleSpTab (a :: l) = true) : noDoubleSpTab l = true := by
  match l with
  | [] => rfl
  | b :: r =>
    rw [noDoubleSpTab, Bool.and_eq_true] at h
    exact h.2

/-- Prepending a non-space/tab preserves the no-double-space/tab property. -/
theorem noDoubleSpTab_cons_not (a : Char) (l : List Char) (ha : isSpTab a = false)
    (h : noDoubleSpTab l = true) : noDoubleSpTab (a :: l) = true := by
  match l with
  | [] => rfl
  | b :: r =>
    rw [noDoubleSpTab, Bool.and_eq_true]
    exact ⟨by simp [ha], h⟩

/-- Prepending before a non-space/tab head preserves the property. -/
theorem noDoubleSpTab_cons_head (a : Char) (l : List Char)
    (hl : ∀ b, l.head? = some b → isSpTab b = false)
    (h : noDoubleSpTab l = true) : noDoubleSpTab (a :: l) = true := by
  match l with
  | [] => rfl
  | b :: r =>
    rw [noDoubleSpTab, Bool.and_eq_true]
    refine ⟨?_, h⟩
    have hb := hl b rfl
    simp [hb]

/-- A text without spaces/tabs trivially has no double space/tab. -/
theorem noDoubleSpTab_of_no_sptab : ∀ (l : List Char),
    (∀ c ∈ l, isSpTab c = false) → noDoubleSpTab l = true := by
  intro l
  induction l with
  | nil => intro _; rfl
  | cons a l ih =>
    intro h
    exact noDoubleSpTab_cons_not a l (h a (List.mem_cons_self _ _))
      (ih (fun x hx => h x (List.mem_cons_of_mem _ hx)))

/-- The no-double-space/tab property restricts to prefixes. -/
theorem noDoubleSpTab_append_right (t : List Char) :
    ∀ (l : List Char), noDoubleSpTab (l ++ t) = true → noDoubleSpTab l = true := by
  intro l
  induction l using noDoubleSpTab.induct with
  | case1 a b rest ih =>
    intro h
    rw [List.cons_append, List.cons_append] at h
    rw [noDoubleSpTab, Bool.and_eq_true] at h
    rw [noDoubleSpTab, Bool.and_eq_true]
    refine ⟨h.1, ih ?_⟩
    rw [List.cons_append]
    exact h.2
  | case2 x hx =>
    intro _
    match x, hx with
    | [], _ => rfl
    | [a], _ => rfl
    | a :: b :: r, hx => exact absurd rfl (hx a b r)

/-- The no-double-space/tab property restricts to suffixes. -/
theorem noDoubleSpTab_append_left (t : List Char) :
    ∀ (l : List Char), noDoubleSpTab (t ++ l) = true → noDoubleSpTab l = true := by
  induction t with
  | nil => intro l h; exact h
  | cons a t ih =>
    intro l h
    rw [List.cons_append] at h
    exact ih l (noDoubleSpTab_tail _ _ h)

/-- An emitted run consists of spaces/tabs only. -/
theorem emitRun_sptab (pend : List Char) (hp : ∀ c ∈ pend, isSpTab c = true) :
    ∀ c ∈ emitRun pend, isSpTab c = true := by
  intro c hc
  unfold emitRun at hc
  split at hc
  · have : c = ' ' := by simpa using hc
    subst this; rfl
  · exact hp c hc

/-- An emitted run has at most one character, or is the single space. -/
theorem emitRun_cases (pend : List Char) :
    emitRun pend = [' '] ∨ (emitRun pend = pend ∧ pend.length ≤ 1) := by
  unfold emitRun
  split
  · exact Or.inl rfl
  · next h => exact Or.inr ⟨rfl, by omega⟩

/-- Every character of the space-collapsed text is from the input, the
pending run, or a space. -/
theorem collapseSpAux_chars : ∀ (cs pend : List Char), ∀ c ∈ collapseSpAux cs pend,
    c ∈ cs ∨ c ∈ pend ∨ c = ' ' := by
  intro cs
  induction cs with
  | nil =>
    intro pend c hc
    rw [collapseSpAux] at hc
    unfold emitRun at hc
    split at hc
    · exact Or.inr (Or.inr (by simpa using hc))
    · exact Or.inr (Or.inl hc)
  | cons a rest ih =>
    intro pend c hc
    by_cases ha : isSpTab a = true
    · rw [collapseSpAux, if_pos ha] at hc
      rcases ih (pend ++ [a]) c hc with h | h | h
      · exact Or.inl (List.mem_cons_of_mem _ h)
      · rcases List.mem_append.mp h with h2 | h2
        · exact Or.inr (Or.inl h2)
        · exact Or.inl ((List.mem_singleton.mp h2) ▸ List.mem_cons_self _ _)
      · exact Or.inr (Or.inr h)
    · rw [collapseSpAux, if_neg ha] at hc
      rcases List.mem_append.mp hc with h | h
      · unfold emitRun at h
        split at h
        · exact Or.inr (Or.inr (by simpa using h))
        · exact Or.inr (Or.inl h)
      · rcases List.mem_cons.mp h with h2 | h2
        · exact Or.inl (h2 ▸ List.mem_cons_self _ _)
        · rcases ih [] c h2 with h3 | h3 | h3
          · exact Or.inl (List.mem_cons_of_mem _ h3)
          · cases h3
          · exact Or.inr (Or.inr h3)

/-- With a non-empty all-space/tab pending run, the output starts with a
space or tab. -/
theorem collapseSpAux_head_sptab : ∀ (cs pend : List Char), pend ≠ [] →
    (∀ c ∈ pend, isSpTab c = true) →
    ∀ h, (collapseSpAux cs pend).head? = some h → isSpTab h = true := by
  intro cs
  induction cs with
  | nil =>
    intro pend hne hp h hh
    rw [collapseSpAux] at hh
    unfold emitRun at hh
    split at hh
    · have : ' ' = h := by simpa using hh
      subst this; rfl
    · rcases List.head?_eq_some_iff.mp hh with ⟨t, ht⟩
      exact hp h (ht ▸ List.mem_cons_self _ _)
  | cons a rest ih =>
    intro pend hne hp h hh
    by_cases ha : isSpTab a = true
    · rw [collapseSpAux, if_pos ha] at hh
      refine ih (pend ++ [a]) (by simp) ?_ h hh
      intro c hc
      rcases List.mem_append.mp hc with h2 | h2
      · exact hp c h2
      · rw [List.mem_singleton] at h2; rw [h2]; exact ha
    · rw [collapseSpAux, if_neg ha] at hh
      rcases emitRun_cases pend with he | ⟨he, hlen⟩
      · rw [he] at hh
        have : ' ' = h := by simpa using hh
        subst this; rfl
      · rw [he] at hh
        rcases pend with _ | ⟨x, pend2⟩
        · exact absurd rfl hne
        · rw [List.cons_append] at hh
          have : x = h := by simpa using hh
          subst this
          exact hp x (List.mem_cons_self _ _)

/-- If the space-collapsed text (with empty pending run) starts with LF, so
did the input. -/
theorem collapseSpAux_head_nl : ∀ (cs : List Char),
    (collapseSpAux cs []).head? = some '\n' → cs.head? = some '\n' := by
  intro cs h
  match cs with
  | [] =>
    rw [collapseSpAux] at h
    simp [emitRun] at h
  | a :: rest =>
    by_cases ha : isSpTab a = true
    · rw [collapseSpAux, if_pos ha] at h
      have := collapseSpAux_head_sptab rest [a] (by simp)
        (by intro c hc; rw [List.mem_singleton] at hc; rw [hc]; exact ha) '\n' h
      exact absurd this (by decide)
    · rw [collapseSpAux, if_neg ha] at h
      have hE : emitRun ([] : List Char) = [] := rfl
      rw [hE, List.nil_append] at h
      have : a = '\n' := by simpa using h
      rw [this]
      rfl

/-- If the space-collapsed text starts with two LFs, so did the input. -/
theorem collapseSpAux_take2_nl : ∀ (cs : List Char),
    (collapseSpAux cs []).take 2 = ['\n', '\n'] → cs.take 2 = ['\n', '\n'] := by
  intro cs h
  match cs with
  | [] =>
    rw [collapseSpAux] at h
    simp [emitRun] at h
  | a :: rest =>
    by_cases ha : isSpTab a = true
    · exfalso
      rw [collapseSpAux, if_pos ha, List.nil_append] at h
      have hh : (collapseSpAux rest [a]).head? = some '\n' := by
        match e : collapseSpAux rest [a] with
        | [] => rw [e] at h; simp at h
        | x :: xs =>
          rw [e, List.take_succ_cons] at h
          have hx : x = '\n' := (List.cons.inj h).1
          rw [hx]
          rfl
      have := collapseSpAux_head_sptab rest [a] (by simp)
        (by intro c hc; rw [List.mem_singleton] at hc; rw [hc]; exact ha) '\n' hh
      exact absurd this (by decide)
    · rw [collapseSpAux, if_neg ha] at h
      have hE : emitRun ([] : List Char) = [] := rfl
      rw [hE, List.nil_append, List.take_succ_cons] at h
      have ha2 : a = '\n' := (List.cons.inj h).1
      have ht : (collapseSpAux rest []).take 1 = ['\n'] := (List.cons.inj h).2
      have hh : (collapseSpAux rest []).head? = some '\n' := by
        match e : collapseSpAux rest [] with
        | [] => rw [e] at ht; simp at ht
        | x :: xs =>
          rw [e, List.take_succ_cons] at ht
          have hx : x = '\n' := (List.cons.inj ht).1
          rw [hx]
          rfl
      have hr := collapseSpAux_head_nl rest hh
      rcases List.head?_eq_some_iff.mp hr with ⟨t, ht2⟩
      rw [List.take_succ_cons, ha2, ht2, List.take_succ_cons, List.take_zero]

/-- Prepending before a `¬ take-2-LF` list whose own body is triple-LF-free
keeps it triple-LF-free, even when prepending an LF. -/
theorem noTripleNl_cons_nl (l : List Char) (hl : noTripleNl l = true)
    (h2 : ¬ (l.take 2 = ['\n', '\n'])) : noTripleNl ('\n' :: l) = true := by
  match l with
  | [] => rfl
  | [b] => rfl
  | b :: c :: r =>
    rw [noTripleNl, Bool.and_eq_true]
    refine ⟨?_, hl⟩
    by_cases hb : b = '\n'
    · by_cases hc : c = '\n'
      · exfalso
        apply h2
        rw [List.take_succ_cons, List.take_succ_cons, List.take_zero, hb, hc]
      · have hcb : (c == '\n') = false := by simpa using hc
        simp [hcb]
    · have hbb : (b == '\n') = false := by simpa using hb
      simp [hbb]

/-- Prepending spaces/tabs keeps a text triple-LF-free. -/
theorem noTripleNl_sptab_append (l : List Char) (hl : noTripleNl l = true) :
    ∀ (X : List Char), (∀ c ∈ X, isSpTab c = true) → noTripleNl (X ++ l) = true := by
  intro X
  induction X with
  | nil => intro _; exact hl
  | cons x X ih =>
    intro hX
    rw [List.cons_append]
    refine noTripleNl_cons x _ ?_ (ih (fun c hc => hX c (List.mem_cons_of_mem _ hc)))
    have hx := hX x (List.mem_cons_self _ _)
    intro hxn
    rw [hxn] at hx
    exact absurd hx (by decide)

/-- Space/tab collapsing keeps a text triple-LF-free. -/
theorem noTripleNl_collapseSpAux : ∀ (cs pend : List Char),
    (∀ c ∈ pend, isSpTab c = true) → noTripleNl cs = true →
    noTripleNl (collapseSpAux cs pend) = true := by
  intro cs
  induction cs with
  | nil =>
    intro pend hp _
    rw [collapseSpAux]
    apply noTripleNl_of_no_nl
    intro c hc
    have hsp := emitRun_sptab pend hp c hc
    intro hcn
    rw [hcn] at hsp
    exact absurd hsp (by decide)
  | cons a rest ih =>
    intro pend hp h
    by_cases ha : isSpTab a = true
    · rw [collapseSpAux, if_pos ha]
      refine ih (pend ++ [a]) ?_ (noTripleNl_tail _ _ h)
      intro c hc
      rcases List.mem_append.mp hc with h2 | h2
      · exact hp c h2
      · rw [List.mem_singleton] at h2; rw [h2]; exact ha
    · rw [collapseSpAux, if_neg ha]
      have hrest : noTripleNl (collapseSpAux rest []) = true :=
        ih [] (by intro c hc; cases hc) (noTripleNl_tail _ _ h)
      have hcons : noTripleNl (a :: collapseSpAux rest []) = true := by
        by_cases han : a = '\n'
        · subst han
          apply noTripleNl_cons_nl _ hrest
          intro htake
          have h2 := collapseSpAux_take2_nl rest htake
          match rest, h2 with
          | b :: c :: r, h2 =>
            rw [List.take_succ_cons, List.take_succ_cons, List.take_zero] at h2
            have hb : b = '\n' := (List.cons.inj h2).1
            have hc : c = '\n' := (List.cons.inj (List.cons.inj h2).2).1
            subst hb; subst hc
            rw [noTripleNl] at h
            simp at h
        · exact noTripleNl_cons a _ han hrest
      exact noTripleNl_sptab_append _ hcons (emitRun pend) (emitRun_sptab pend hp)

/-- Space/tab collapsing establishes the no-double-space/tab property. -/
theorem noDoubleSpTab_collapseSpAux : ∀ (cs pend : List Char),
    (∀ c ∈ pend, isSpTab c = true) →
    noDoubleSpTab (collapseSpAux cs pend) = true := by
  intro cs
  induction cs with
  | nil =>
    intro pend hp
    rw [collapseSpAux]
    rcases emitRun_cases pend with he | ⟨he, hlen⟩
    · rw [he]; rfl
    · rw [he]
      match pend, hlen with
      | [], _ => rfl
      | [x], _ => rfl
  | cons a rest ih =>
    intro pend hp
    by_cases ha : isSpTab a = true
    · rw [collapseSpAux, if_pos ha]
      refine ih (pend ++ [a]) ?_
      intro c hc
      rcases List.mem_append.mp hc with h2 | h2
      · exact hp c h2
      · rw [List.mem_singleton] at h2; rw [h2]; exact ha
    · rw [collapseSpAux, if_neg ha]
      have ha' : isSpTab a = false := by
        cases hb : isSpTab a
        · rfl
        · exact absurd hb ha
      have hout : noDoubleSpTab (collapseSpAux rest []) = true :=
        ih [] (by intro c hc; cases hc)
      have hcons : noDoubleSpTab (a :: collapseSpAux rest []) = true :=
        noDoubleSpTab_cons_not a _ ha' hout
      rcases emitRun_cases pend with he | ⟨he, hlen⟩
      · rw [he, List.singleton_append]
        refine noDoubleSpTab_cons_head ' ' _ ?_ hcons
        intro b hb
        have : a = b := by simpa using hb
        rw [← this]
        exact ha'
      · rw [he]
        match pend, hlen with
        | [], _ => simpa using hcons
        | [x], _ =>
          rw [List.singleton_append]
          refine noDoubleSpTab_cons_head x _ ?_ hcons
          intro b hb
          have : a = b := by simpa using hb
          rw [← this]
          exact ha'

/-- Space/tab collapsing is the identity when no two spaces/tabs are
adjacent. -/
theorem collapseSpAux_eq_self : ∀ (cs pend : List Char), pend.length ≤ 1 →
    (∀ c ∈ pend, isSpTab c = true) → noDoubleSpTab (pend ++ cs) = true →
    collapseSpAux cs pend = pend ++ cs := by
  intro cs
  induction cs with
  | nil =>
    intro pend hlen _ _
    rw [collapseSpAux, List.append_nil]
    unfold emitRun
    rw [if_neg (by omega)]
  | cons a rest ih =>
    intro pend hlen hsp hnd
    by_cases ha : isSpTab a = true
    · match pend, hlen, hsp, hnd with
      | [], _, _, hnd =>
        rw [collapseSpAux, if_pos ha]
        have hres := ih [a] (by simp)
          (by intro c hc; rw [List.mem_singleton] at hc; rw [hc]; exact ha)
          (by simpa using hnd)
        simp only [List.nil_append]
        rw [hres]
        rfl
      | [x], _, hsp, hnd =>
        exfalso
        have hx : isSpTab x = true := hsp x (List.mem_cons_self _ _)
        rw [List.singleton_append, noDoubleSpTab, Bool.and_eq_true] at hnd
        have h1 := hnd.1
        rw [hx, ha] at h1
        simp at h1
    · rw [collapseSpAux, if_neg ha]
      have hE : emitRun pend = pend := by
        unfold emitRun
        rw [if_neg (by omega)]
      rw [hE]
      have h1 : noDoubleSpTab (a :: rest) = true := by
        match pend, hlen, hnd with
        | [], _, hnd => simpa using hnd
        | [x], _, hnd =>
          rw [List.singleton_append] at hnd
          exact noDoubleSpTab_tail _ _ hnd
      have hres := ih [] (by simp) (by intro c hc; cases hc)
        (by simpa using noDoubleSpTab_tail _ _ h1)
      rw [List.nil_append] at hres
      rw [hres]

/-- The whole-list wrappers. -/
theorem collapseNl_eq_self (cs : List Char) (h : noTripleNl cs = true) :
    collapseNl cs = cs := by
  unfold collapseNl
  rw [collapseNlAux_eq_self cs 0 (by simpa using noTripleNl_leadNl cs h) h]
  rfl

/-- Collapsing spaces is the identity on already-collapsed text. -/
theorem collapseSp_eq_self (cs : List Char) (h : noDoubleSpTab cs = true) :
    collapseSp cs = cs := by
  unfold collapseSp
  rw [collapseSpAux_eq_self cs [] (by simp) (by intro c hc; cases hc) (by simpa using h)]
  rfl

/-- Stripping only keeps characters of the input. -/
theorem pyStrip_subset (cs : List Char) : ∀ c ∈ pyStrip cs, c ∈ cs := by
  intro c hc
  unfold pyStrip at hc
  rw [List.mem_reverse] at hc
  have hc2 := (List.dropWhile_sublist _).mem hc
  rw [List.mem_reverse] at hc2
  exact (List.dropWhile_sublist _).mem hc2

/-- The stripped text is a prefix of the left-stripped text. -/
theorem pyStrip_prefix_dropWhile (cs : List Char) :
    ∃ suf, cs.dropWhile Char.isWhitespace = pyStrip cs ++ suf := by
  unfold pyStrip
  obtain ⟨t2, ht2⟩ :=
    List.dropWhile_suffix (l := (cs.dropWhile Char.isWhitespace).reverse) Char.isWhitespace
  refine ⟨t2.reverse, ?_⟩
  have h3 := congrArg List.reverse ht2
  rw [List.reverse_append, List.reverse_reverse] at h3
  exact h3.symm

/-- The stripped text sits inside the input. -/
theorem pyStrip_decomp (cs : List Char) :
    ∃ pre suf, cs = pre ++ (pyStrip cs ++ suf) := by
  obtain ⟨pre, hpre⟩ := List.dropWhile_suffix (l := cs) Char.isWhitespace
  obtain ⟨suf, hsuf⟩ := pyStrip_prefix_dropWhile cs
  exact ⟨pre, suf, by rw [← hsuf, hpre]⟩

/-- dropWhile leaves a head that falsifies the predicate. -/
theorem dropWhile_head_false (p : Char → Bool) :
    ∀ (l : List Char) (h : Char), (l.dropWhile p).head? = some h → p h = false := by
  intro l
  induction l with
  | nil => intro h hh; simp at hh
  | cons a l ih =>
    intro h hh
    by_cases ha : p a = true
    · rw [List.dropWhile_cons, if_pos ha] at hh
      exact ih h hh
    · rw [List.dropWhile_cons, if_neg ha] at hh
      have : a = h := by simpa using hh
      rw [← this]
      cases hb : p a
      · rfl
      · exact absurd hb ha

/-- dropWhile is the identity when the head already falsifies the
predicate. -/
theorem dropWhile_eq_self_of_head (p : Char → Bool) (l : List Char)
    (h : ∀ x, l.head? = some x → p x = false) : l.dropWhile p = l := by
  match l with
  | [] => rfl
  | a :: l =>
    rw [List.dropWhile_cons, if_neg]
    have := h a rfl
    simp [this]

/-- The stripped text neither starts nor ends with whitespace. -/
theorem pyStrip_ends (cs : List Char) :
    (∀ h, (pyStrip cs).head? = some h → h.isWhitespace = false)
    ∧ (∀ h, (pyStrip cs).getLast? = some h → h.isWhitespace = false) := by
  constructor
  · intro h hh
    obtain ⟨suf, hsuf⟩ := pyStrip_prefix_dropWhile cs
    rcases List.head?_eq_some_iff.mp hh with ⟨t, ht⟩
    apply dropWhile_head_false Char.isWhitespace cs h
    rw [hsuf, ht]
    rfl
  · intro h hh
    unfold pyStrip at hh
    rw [List.getLast?_reverse] at hh
    exact dropWhile_head_false Char.isWhitespace _ h hh

/-- Stripping is the identity on already-stripped text. -/
theorem pyStrip_eq_self (cs : List Char)
    (hh : ∀ x, cs.head? = some x → x.isWhitespace = false)
    (hl : ∀ x, cs.getLast? = some x → x.isWhitespace = false) : pyStrip cs = cs := by
  unfold pyStrip
  rw [dropWhile_eq_self_of_head Char.isWhitespace cs hh]
  rw [dropWhile_eq_self_of_head Char.isWhitespace cs.reverse
    (by intro x hx; exact hl x (by rwa [List.head?_reverse] at hx))]
  exact List.reverse_reverse cs

/-- C9: the whitespace normalizer `_清理文本` is idempotent — NBSPs become
spaces, CR/CRLF become LF, runs of three or more LFs collapse to two, runs of
two or more spaces/tabs collapse to one space, the result is stripped, and a
second application changes nothing. -/
theorem C9_cleanText_idempotent : ∀ s : String, cleanText (cleanText s) = cleanText s := by
  intro s
  by_cases hs : s = ""
  · subst hs; rfl
  · have ht : cleanText s
        = String.mk (pyStrip (collapseSp (collapseNl (fixCRLF (deNbsp s.toList))))) := by
      rw [cleanText, if_neg hs]
    set l1 := deNbsp s.toList with hl1
    set l2 := fixCRLF l1 with hl2
    set l3 := collapseNl l2 with hl3
    set l4 := collapseSp l3 with hl4
    set out := pyStrip l4 with hout
    have hmem4 : ∀ c ∈ l4, c ∈ l2 ∨ c = '\n' ∨ c = ' ' := by
      intro c hc
      rcases collapseSpAux_chars l3 [] c hc with h3 | h3 | h3
      · rcases collapseNlAux_chars l2 0 c h3 with h2 | h2
        · exact Or.inl h2
        · exact Or.inr (Or.inl h2)
      · cases h3
      · exact Or.inr (Or.inr h3)
    have p1 : ∀ c ∈ out, c ≠ nbsp := by
      intro c hc
      rcases hmem4 c (pyStrip_subset l4 c hc) with h2 | h2 | h2
      · rcases fixCRLF_chars l1 c h2 with h1 | h1
        · exact deNbsp_no_nbsp s.toList c h1
        · rw [h1]; decide
      · rw [h2]; decide
      · rw [h2]; decide
    have p2 : ∀ c ∈ out, c ≠ '\r' := by
      intro c hc
      rcases hmem4 c (pyStrip_subset l4 c hc) with h2 | h2 | h2
      · exact fixCRLF_no_cr l1 c h2
      · rw [h2]; decide
      · rw [h2]; decide
    have hnl4 : noTripleNl l4 = true :=
      noTripleNl_collapseSpAux l3 [] (by intro c hc; cases hc)
        (noTripleNl_collapseNlAux l2 0)
    have hsp4 : noDoubleSpTab l4 = true :=
      noDoubleSpTab_collapseSpAux l3 [] (by intro c hc; cases hc)
    obtain ⟨pre, suf, hdec⟩ := pyStrip_decomp l4
    have p3 : noTripleNl out = true := by
      have h0 : noTripleNl (pre ++ (out ++ suf)) = true := by rw [← hdec]; exact hnl4
      exact noTripleNl_append_right suf out (noTripleNl_append_left pre (out ++ suf) h0)
    have p4 : noDoubleSpTab out = true := by
      have h0 : noDoubleSpTab (pre ++ (out ++ suf)) = true := by rw [← hdec]; exact hsp4
      exact noDoubleSpTab_append_right suf out (noDoubleSpTab_append_left pre (out ++ suf) h0)
    obtain ⟨p5, p6⟩ := pyStrip_ends l4
    have hfix : cleanText (String.mk out) = String.mk out := by
      by_cases hemp : String.mk out = ""
      · rw [hemp]; rfl
      · rw [cleanText, if_neg hemp]
        have htl : (String.mk out).toList = out := rfl
        rw [htl, deNbsp_eq_self out p1, fixCRLF_eq_self out p2, collapseNl_eq_self out p3,
          collapseSp_eq_self out p4, pyStrip_eq_self out p5 p6]
    rw [ht]
    exact hfix

end Firecrawl
